import Mathlib

/-!
# wavemix: sample encoding, sine synthesis and the WAVE header

A shallow embedding of `src/ufop/wavemix/wavforge.go`.

Conventions of the embedding.

* A Go `string` and a `[]byte` are lists of bytes, `List ℕ` with every element below 256.
  A `[]string` is a list of such lists.
* `float64` quantities are exact rationals (`ℚ`): the embedding agrees with the machine
  wherever the floating-point operations involved are exact or far from a rounding
  boundary. The product `sampleRate * seconds`, whose floor is the number of frames of a
  call, is rounded as the machine rounds it (`float64Round`). `bitsPerSample`, a `float64`
  holding a whole number of bits, is an integer, so that `math.Pow(2, bitsPerSample)` is the
  exact power.
* `int` quantities are integers (`ℤ`), not reduced modulo `2 ^ 64`: a statement about every
  state carries the bounds that keep them in the range of `int`. The unsigned header fields
  are naturals reduced modulo their width.
* A method with a pointer receiver takes the receiver and returns the updated receiver.
  A run-time panic (negative or overflowing repeat count, index out of range) is `none`.
  Memory and running time are not modelled.
* `math.Sin` belongs to the Go library, not to this repository: the synthesis functions
  take it as the parameter `sin`. `math.Pi` is the `float64` nearest to π.
-/

namespace wavemix

/-! ## Go primitives used by the source -/

/-- Conversion of an integer to a `string`: the UTF-8 encoding of the code point,
and U+FFFD for a value that is not a valid code point. -/
def runeString (r : ℤ) : List ℕ :=
  if r < 0 ∨ 0x10FFFF < r ∨ (0xD800 ≤ r ∧ r ≤ 0xDFFF) then [0xEF, 0xBF, 0xBD]
  else
    let c := r.toNat
    if c < 0x80 then [c]
    else if c < 0x800 then [0xC0 + c / 64, 0x80 + c % 64]
    else if c < 0x10000 then [0xE0 + c / 4096, 0x80 + c / 64 % 64, 0x80 + c % 64]
    else [0xF0 + c / 262144, 0x80 + c / 4096 % 64, 0x80 + c / 64 % 64, 0x80 + c % 64]

/-- Library function `strings.Repeat`: `count` copies of `s`; it panics on a negative count
and when `len(s) * count` overflows `int`, of 64 bits. -/
def stringsRepeat (s : List ℕ) (count : ℤ) : Option (List ℕ) :=
  if count < 0 ∨ 2 ^ 63 - 1 < (s.length : ℤ) * count then none
  else some (List.replicate count.toNat s).flatten

/-- Library function `strings.Join` with the empty separator. -/
def stringsJoin (elems : List (List ℕ)) : List ℕ := elems.flatten

/-- Library function `strings.Index` for a one-character needle:
the position of the first occurrence, `-1` when there is none. -/
def stringsIndex (s : List Char) (c : Char) : ℤ :=
  if c ∈ s then (s.indexOf c : ℤ) else -1

/-- The bytes of an ASCII string literal. -/
def asciiBytes (s : String) : List ℕ := s.toList.map Char.toNat

/-- Built-in `copy(dst[:], src)`: the first `min (len dst) (len src)` bytes of `dst` are
overwritten, the rest are kept. -/
def copyBytes (dst src : List ℕ) : List ℕ := src.take dst.length ++ dst.drop src.length

/-- The integer nearest to `x`, the even one of the two when `x` lies halfway between them. -/
def roundHalfEven (x : ℚ) : ℤ :=
  if Int.fract x < 1 / 2 then ⌊x⌋
  else if 1 / 2 < Int.fract x then ⌊x⌋ + 1
  else if ⌊x⌋ % 2 = 0 then ⌊x⌋ else ⌊x⌋ + 1

/-- The `float64` nearest to `x`, ties to even: 53 significant bits at the binary exponent `e`
of `x`, and the fixed spacing `2 ^ (-1074)` of the subnormal numbers below `2 ^ (-1022)`.
Overflow to an infinity, from `2 ^ 1024` on, is not modelled. -/
def float64Round (x : ℚ) : ℚ :=
  let e : ℤ := max (Int.log 2 |x|) (-1022)
  roundHalfEven (x / 2 ^ (e - 52)) * 2 ^ (e - 52)

/-- Conversion of a `float64` to an integer type: the fraction is discarded (toward zero). -/
def truncate (x : ℚ) : ℤ := if 0 ≤ x then ⌊x⌋ else ⌈x⌉

/-- Conversion `uint32(x)` of a `float64`. -/
def uint32OfFloat (x : ℚ) : ℕ := (truncate x % 2 ^ 32).toNat

/-- Conversion `uint16(x)` of a `float64`. -/
def uint16OfFloat (x : ℚ) : ℕ := (truncate x % 2 ^ 16).toNat

/-- Conversion `uint16(n)` of an `int`. -/
def uint16OfInt (n : ℤ) : ℕ := (n % 2 ^ 16).toNat

/-- The `width` bytes of an unsigned integer in memory, least significant byte first. -/
def littleEndian (width n : ℕ) : List ℕ := (List.range width).map fun k => n / 256 ^ k % 256

/-- Constant `math.Pi` as a `float64`: `0x400921FB54442D18`. -/
def Pi : ℚ := 884279719003555 / 281474976710656

/-! ## Data -/

/-- The value built by `errors.New` in `EncodeSample`, with the two numbers its message
is formatted from. -/
inductive error where
  | Overflow (number : ℚ) (bitsPerSample : ℤ)
  deriving DecidableEq

/-- The receiver `WavForge`. -/
structure WavForge where
  channels : ℤ
  sampleRate : ℚ
  bitsPerSample : ℤ
  sampleCount : ℤ
  output : List ℕ
  deriving DecidableEq

/-- The struct `WavHeader`; `flag_fmt` is declared with three bytes. -/
structure WavHeader where
  flag_RIFF : List ℕ := List.replicate 4 0
  chunkSize : ℕ := 0
  flag_WAVE : List ℕ := List.replicate 4 0
  flag_fmt : List ℕ := List.replicate 3 0
  subchunk_1_size : ℕ := 0
  wFormatTag : ℕ := 0
  wChannels : ℕ := 0
  dwSamplesPerSec : ℕ := 0
  dwAvgBytesPerSec : ℕ := 0
  wBlockAlign : ℕ := 0
  uiBitsPerSample : ℕ := 0
  flag_data : List ℕ := List.replicate 4 0
  subchunk_2_size : ℕ := 0
  deriving DecidableEq

/-- The 44 bytes read through `(*[44]byte)(unsafe.Pointer(&wavHeader))` on a little-endian
machine: the fields in declaration order, each at its natural alignment, integers least
significant byte first. The three bytes of `flag_fmt` end at offset 15 and
`subchunk_1_size` is aligned to 16, so one padding byte of the zero-initialised struct
lies between them. -/
def WavHeader.memory (h : WavHeader) : List ℕ :=
  h.flag_RIFF ++ littleEndian 4 h.chunkSize ++ h.flag_WAVE ++ h.flag_fmt ++ [0]
    ++ littleEndian 4 h.subchunk_1_size ++ littleEndian 2 h.wFormatTag
    ++ littleEndian 2 h.wChannels ++ littleEndian 4 h.dwSamplesPerSec
    ++ littleEndian 4 h.dwAvgBytesPerSec ++ littleEndian 2 h.wBlockAlign
    ++ littleEndian 2 h.uiBitsPerSample ++ h.flag_data ++ littleEndian 4 h.subchunk_2_size

/-! ## Configuration -/

/-- Method `InitConfig`. -/
def WavForge.InitConfig (this : WavForge) : WavForge :=
  { this with channels := 2, sampleRate := 44100, bitsPerSample := 16, sampleCount := 0,
              output := [] }

/-- Method `SetChannels`. -/
def WavForge.SetChannels (this : WavForge) (channels : ℤ) : WavForge :=
  { this with channels := channels }

/-- Method `getChannels`. -/
def WavForge.getChannels (this : WavForge) : ℤ := this.channels

/-- Method `SetSampleRate`. -/
def WavForge.SetSampleRate (this : WavForge) (sampleRate : ℚ) : WavForge :=
  { this with sampleRate := sampleRate }

/-- Method `getSampleRate`. -/
def WavForge.getSampleRate (this : WavForge) : ℚ := this.sampleRate

/-- Method `SetBitsPerSample`. -/
def WavForge.SetBitsPerSample (this : WavForge) (bitsPerSample : ℤ) : WavForge :=
  { this with bitsPerSample := bitsPerSample }

/-- Method `getBitsPerSample`. -/
def WavForge.getBitsPerSample (this : WavForge) : ℤ := this.bitsPerSample

/-- Method `getSampleCount`. -/
def WavForge.getSampleCount (this : WavForge) : ℤ := this.sampleCount

/-- A zero-valued `WavForge`, the receiver before `InitConfig`. -/
def WavForge.zero : WavForge :=
  { channels := 0, sampleRate := 0, bitsPerSample := 0, sampleCount := 0, output := [] }

/-! ## The header -/

/-- Method `getWavHeader`, up to the filled-in struct. -/
def WavForge.wavHeader (this : WavForge) : WavHeader :=
  let subchunk_2_size : ℚ :=
    (this.getSampleCount : ℚ) * (this.channels : ℚ) * this.bitsPerSample / 8
  { flag_RIFF := copyBytes (List.replicate 4 0) (asciiBytes "RIFF")
    chunkSize := uint32OfFloat (subchunk_2_size + 36)
    flag_WAVE := copyBytes (List.replicate 4 0) (asciiBytes "WAVE")
    flag_fmt := copyBytes (List.replicate 3 0) (asciiBytes "fmt")
    subchunk_1_size := 16
    wFormatTag := 1
    wChannels := uint16OfInt this.channels
    dwSamplesPerSec := uint32OfFloat this.sampleRate
    dwAvgBytesPerSec := uint32OfFloat (this.sampleRate * (this.channels : ℚ) * this.bitsPerSample / 8)
    wBlockAlign := uint16OfFloat ((this.channels : ℚ) * this.bitsPerSample / 8)
    uiBitsPerSample := uint16OfFloat this.bitsPerSample
    flag_data := copyBytes (List.replicate 4 0) (asciiBytes "data")
    subchunk_2_size := uint32OfFloat subchunk_2_size }

/-- Method `getWavHeader`. -/
def WavForge.getWavHeader (this : WavForge) : List ℕ := this.wavHeader.memory

/-- Method `getWavData`. -/
def WavForge.getWavData (this : WavForge) : List ℕ := this.getWavHeader ++ this.output

/-! ## Encoding one sample -/

/-- The digit loop of `EncodeSample`, entered only with `number > 0`:
`for { mod := ...; charSlice = append(charSlice, mod); number = math.Floor(number / 256);
if number == 0 { break } }`. -/
def EncodeSample.digits (number : ℚ) (hpos : 0 < number) (charSlice : List (List ℕ)) :
    List (List ℕ) :=
  let mod := runeString (Int.tmod ⌊number⌋ 256)
  let charSlice := charSlice ++ [mod]
  if h : ((⌊number / 256⌋ : ℤ) : ℚ) = 0 then charSlice
  else
    EncodeSample.digits ((⌊number / 256⌋ : ℤ) : ℚ)
      (lt_of_le_of_ne (Int.cast_nonneg.mpr (Int.floor_nonneg.mpr (by positivity))) (Ne.symm h))
      charSlice
termination_by ⌊number⌋.toNat
decreasing_by
  have h5 : (0 : ℤ) ≤ ⌊number / 256⌋ := Int.floor_nonneg.mpr (by positivity)
  have hne : ⌊number / 256⌋ ≠ 0 := fun hz => h (by rw [hz]; rfl)
  have h2 : ((⌊number / 256⌋ : ℤ) : ℚ) ≤ number / 256 := Int.floor_le _
  have h1 : (1 : ℚ) ≤ ((⌊number / 256⌋ : ℤ) : ℚ) := by
    exact_mod_cast (show (1 : ℤ) ≤ ⌊number / 256⌋ by omega)
  have h4 : ⌊number / 256⌋ < ⌊number⌋ := by
    rw [Int.floor_lt]
    have : number - 1 < ((⌊number⌋ : ℤ) : ℚ) := Int.sub_one_lt_floor number
    linarith
  rw [Int.floor_intCast]
  omega

/-- The padding loop of `EncodeSample`:
`for i := 0; i < -(-(int(bitsPerSample)) >> 3) - len(charSlice); i++ { charSlice =
append(charSlice, string(0)) }`. The bound is evaluated before every iteration, with the
current length of `charSlice`. -/
def EncodeSample.pad (bitsPerSample : ℤ) (i : ℤ) (charSlice : List (List ℕ)) :
    List (List ℕ) :=
  if i < -((-bitsPerSample) >>> 3) - (charSlice.length : ℤ) then
    EncodeSample.pad bitsPerSample (i + 1) (charSlice ++ [runeString 0])
  else charSlice
termination_by (-((-bitsPerSample) >>> 3) - (charSlice.length : ℤ) - i).toNat
decreasing_by
  simp only [List.length_append, List.length_singleton, Nat.cast_add, Nat.cast_one]
  omega

/-- The part of `EncodeSample` after the overflow test: the digit loop, entered when
`number > 0`, the padding loop and `strings.Join`. -/
def EncodeSample.encode (bitsPerSample : ℤ) (number : ℚ) : List ℕ × Option error :=
  let charSlice : List (List ℕ) := []
  let charSlice := if h : number > 0 then EncodeSample.digits number h charSlice else charSlice
  let charSlice := EncodeSample.pad bitsPerSample 0 charSlice
  (stringsJoin charSlice, none)

/-- Method `EncodeSample`: the pair `(encodedStr, err)`. On overflow the function returns
early, with `encodedStr` still the empty string. -/
def WavForge.EncodeSample (this : WavForge) (number : ℚ) : List ℕ × Option error :=
  let max : ℚ := 2 ^ this.bitsPerSample
  let number := if number < 0 then number + max else number
  if number ≥ max then
    if number = max then EncodeSample.encode this.bitsPerSample 0
    else ([], some (error.Overflow number this.bitsPerSample))
  else EncodeSample.encode this.bitsPerSample number

/-! ## Synthesis -/

/-- The body of the frame loop of `synthesizeSine` at frame `i`. The error of `EncodeSample`
is not acted upon (`if err != nil { // TODO }`). -/
def synthesizeSine.frame (sin : ℚ → ℚ) (frequency volume total raiseWing dropWing b : ℚ)
    (this : WavForge) (i : ℕ) : Option WavForge :=
  let wingRatio : ℚ :=
    if (i : ℚ) < raiseWing then i / raiseWing
    else if dropWing ≥ total - i then (total - i) / dropWing
    else 1.0
  let (encodedStr, _err) :=
    this.EncodeSample (volume * b * wingRatio * sin (2 * Pi * i * frequency / this.sampleRate))
  (stringsRepeat encodedStr this.channels).map fun s =>
    { this with output := this.output ++ s, sampleCount := this.sampleCount + 1 }

/-- Method `synthesizeSine`: `for i := 0.0; i < total; i++` runs the frame body for
`i = 0, 1, ...` below `total`, a whole number: `math.Floor` of the product
`sampleRate * seconds` as the machine rounds it. -/
def WavForge.synthesizeSine (sin : ℚ → ℚ) (this : WavForge) (frequency volume seconds : ℚ) :
    Option WavForge :=
  let total : ℚ := ⌊float64Round (this.sampleRate * seconds)⌋
  let raiseWing := total * 0.250
  let dropWing := total * 0.250
  let b := (2 : ℚ) ^ this.bitsPerSample / 2
  (List.range ⌊total⌋.toNat).foldlM
    (synthesizeSine.frame sin frequency volume total raiseWing dropWing b) this

/-- The loop of `CreateWave` over the characters of `testCode`, in order. `CreateWave` runs
it on its one constant code; the method has no parameter, so no other code reaches the loop
in the source. -/
def CreateWave.loop (sin : ℚ → ℚ) (testCode : List Char) (this : WavForge) : Option WavForge :=
  let baseFrequency : ℤ := 18000
  let characters := "0123456789abcdefghijklmnopqrstuv".toList
  let period : ℚ := 0.0872
  let frequency : List ℚ := (List.range 32).map fun i => ((baseFrequency + i * 64 : ℤ) : ℚ)
  testCode.foldlM
    (fun this char =>
      let pos := stringsIndex characters char
      (this.synthesizeSine sin 17800 0.6 (period / 2.0 * 1.4)).bind fun this =>
        (if pos < 0 then none else frequency.get? pos.toNat).bind fun f =>
          this.synthesizeSine sin f 0.6 (period / 2.0 * 0.6))
    this

/-- Method `CreateWave`: the updated receiver and the pair `(result, err)`. -/
def WavForge.CreateWave (sin : ℚ → ℚ) (this : WavForge) :
    Option (WavForge × List ℕ × Option error) :=
  (CreateWave.loop sin "uv8e463l175lsiijdq4t".toList this).map fun this =>
    (this, this.output, none)

/-! ## Auxiliary definitions for the statements -/

/-- The base-256 digits, least significant first, that the digit loop of `EncodeSample`
emits for a positive number with whole part `n`: the single digit `0` when `n = 0`. -/
def sampleDigits (n : ℕ) : List ℕ := if n = 0 then [0] else Nat.digits 256 n

/-- The string `EncodeSample` builds from a value `v` that passed the overflow test, in
closed form: the digits of `v`, each converted to a string, then the zero strings of the
padding loop. -/
def encodedString (b : ℤ) (v : ℚ) : List ℕ :=
  let ds : List ℕ := if 0 < v then sampleDigits ⌊v⌋.toNat else []
  (ds.map (fun (d : ℕ) => runeString (d : ℤ))
    ++ List.replicate ((-((-b) >>> 3) - (ds.length : ℤ) + 1) / 2).toNat [0]).flatten

/-- The decoding of the round-trip law of the specification: the bytes of a string read as
a little-endian base-256 number. -/
def decode (s : List ℕ) : ℕ := s.foldr (fun byte acc => byte + 256 * acc) 0

/-- The unsigned integer stored least significant byte first in the `width` bytes of `bytes`
that start at `offset`. -/
def fieldAt (bytes : List ℕ) (offset width : ℕ) : ℕ := decode ((bytes.drop offset).take width)

/-- The `width` bytes of `bytes` that start at `offset`. -/
def bytesAt (bytes : List ℕ) (offset width : ℕ) : List ℕ := (bytes.drop offset).take width

/-- The envelope of `synthesizeSine` at frame `i` of `total`: the value of `wingRatio`. -/
def wingRatioAt (total : ℚ) (i : ℕ) : ℚ :=
  let raiseWing := total * 0.250
  let dropWing := total * 0.250
  if (i : ℚ) < raiseWing then i / raiseWing
  else if dropWing ≥ total - i then (total - i) / dropWing
  else 1.0

/-- The amplitude `synthesizeSine` passes to `EncodeSample` at frame `i` of a call. -/
def sampleAt (sin : ℚ → ℚ) (this : WavForge) (frequency volume seconds : ℚ) (i : ℕ) : ℚ :=
  let total : ℚ := ⌊float64Round (this.sampleRate * seconds)⌋
  let b := (2 : ℚ) ^ this.bitsPerSample / 2
  volume * b * wingRatioAt total i * sin (2 * Pi * i * frequency / this.sampleRate)

/-- The bytes frame `i` of a call of `synthesizeSine` appends to `output`: the encoded
string of the frame, once per channel. -/
def frameBytes (sin : ℚ → ℚ) (this : WavForge) (frequency volume seconds : ℚ) (i : ℕ) :
    List ℕ :=
  (List.replicate this.channels.toNat
    (this.EncodeSample (sampleAt sin this frequency volume seconds i)).1).flatten

/-- The number of frames of a call of `synthesizeSine`: `total` as a natural number. -/
def frameCount (this : WavForge) (seconds : ℚ) : ℕ := ⌊float64Round (this.sampleRate * seconds)⌋.toNat

/-- The alignment invariant of the specification:
`len(output) == sampleCount * channels * (bitsPerSample / 8)`. -/
def aligned (this : WavForge) : Prop :=
  (this.output.length : ℚ) = this.sampleCount * this.channels * (this.bitsPerSample / 8)

/-- Bhaskara's rational approximation of the sine, of period `2 * Pi`: a concrete function
to run the synthesis with. -/
def sineApprox (x : ℚ) : ℚ :=
  let t := Int.fract (x / (2 * Pi))
  if t ≤ 1 / 2 then 16 * (2 * t) * (1 - 2 * t) / (5 - 4 * (2 * t) * (1 - 2 * t))
  else -(16 * (2 * t - 1) * (2 - 2 * t) / (5 - 4 * (2 * t - 1) * (2 - 2 * t)))

/-- What the synthesis claims assume of the library sine, on the arguments the tones use
(`0 ≤ x ≤ 10000`): its values lie in `[-1, 1]`, it is positive where the phase of `x`, the
fractional part of `x / (2 * Pi)`, lies in `[0.001, 0.499]` and negative where the phase lies
in `[0.501, 0.999]`. Nothing is assumed within a thousandth of a period of a zero crossing. -/
def SineLike (sin : ℚ → ℚ) : Prop :=
  (∀ x, -1 ≤ sin x ∧ sin x ≤ 1)
    ∧ ∀ x, 0 ≤ x → x ≤ 10000 →
        (1 / 1000 ≤ Int.fract (x / (2 * Pi)) → Int.fract (x / (2 * Pi)) ≤ 499 / 1000 → 0 < sin x)
          ∧ (501 / 1000 ≤ Int.fract (x / (2 * Pi)) → Int.fract (x / (2 * Pi)) ≤ 999 / 1000
              → sin x < 0)

/-- A lower bound on the length of the encoded string of frame `i` of a tone of `f` Hz at
44100 Hz and 16 bits, under `SineLike`: 3 where the phase `i * f / 44100` makes the sine
negative (the high digit is at least 128, two bytes), 2 where it makes the sine positive,
and 1 at the first frame and next to a zero crossing. -/
def frameLower (f i : ℕ) : ℕ :=
  if i = 0 then 1
  else if 45 ≤ (i * f) % 44100 ∧ (i * f) % 44100 ≤ 22005 then 2
  else if 22095 ≤ (i * f) % 44100 ∧ (i * f) % 44100 ≤ 44055 then 3
  else 1

/-- The sum of `g` over the `2 ^ k` indices from `s` on, by halving. -/
def sumBlock (g : ℕ → ℕ) : ℕ → ℕ → ℕ
  | 0, s => g s
  | k + 1, s => sumBlock g k s + sumBlock g k (s + 2 ^ k)

/-- A bound on the byte length of the string `EncodeSample` returns at bit depth `b`: at most
`max 1 ⌈b / 8⌉` strings of at most two bytes each. -/
def encodedBound (b : ℤ) : ℤ := 2 * max (1 : ℤ) (-((-b) >>> 3))

/-! ## Go primitives -/

theorem runeString_zero : runeString 0 = [0] := by decide

theorem runeString_of_lt_128 (d : ℕ) (h : d < 128) : runeString (d : ℤ) = [d] := by
  unfold runeString
  have h1 : ¬ ((d : ℤ) < 0 ∨ 0x10FFFF < (d : ℤ) ∨ (0xD800 ≤ (d : ℤ) ∧ (d : ℤ) ≤ 0xDFFF)) := by omega
  rw [if_neg h1]
  simp [h]

theorem runeString_of_ge_128 (d : ℕ) (h : 128 ≤ d) (h' : d < 256) :
    runeString (d : ℤ) = [0xC0 + d / 64, 0x80 + d % 64] := by
  unfold runeString
  have h1 : ¬ ((d : ℤ) < 0 ∨ 0x10FFFF < (d : ℤ) ∨ (0xD800 ≤ (d : ℤ) ∧ (d : ℤ) ≤ 0xDFFF)) := by omega
  rw [if_neg h1]
  have h2 : ¬ d < 128 := by omega
  have h3 : d < 2048 := by omega
  simp [h2, h3]

/-! ## The loops of `EncodeSample` in closed form -/

/-- The padding loop appends `⌈(width - len - i) / 2⌉` zero strings: its bound shrinks by one
with every string it appends. -/
theorem pad_eq (b : ℤ) (i : ℤ) (cs : List (List ℕ)) :
    EncodeSample.pad b i cs
      = cs ++ List.replicate ((-((-b) >>> 3) - (cs.length : ℤ) - i + 1) / 2).toNat [0] := by
  induction i, cs using EncodeSample.pad.induct b with
  | case1 i cs h ih =>
    rw [EncodeSample.pad, if_pos h, ih, runeString_zero]
    simp only [List.length_append, List.length_singleton, Nat.cast_add, Nat.cast_one,
      List.append_assoc]
    congr 1
    have : ((-((-b) >>> 3) - (cs.length : ℤ) - i + 1) / 2).toNat
        = ((-((-b) >>> 3) - ((cs.length : ℤ) + 1) - (i + 1) + 1) / 2).toNat + 1 := by omega
    rw [this, List.replicate_succ]
    rfl
  | case2 i cs h =>
    rw [EncodeSample.pad, if_neg h]
    have : ((-((-b) >>> 3) - (cs.length : ℤ) - i + 1) / 2).toNat = 0 := by omega
    rw [this]; simp

theorem floor_div_256 (x : ℚ) : ⌊x / 256⌋ = ⌊x⌋ / 256 := by
  rw [Int.floor_eq_iff]
  have h1 : ((⌊x⌋ : ℤ) : ℚ) ≤ x := Int.floor_le x
  have h2 : x < ((⌊x⌋ : ℤ) : ℚ) + 1 := Int.lt_floor_add_one x
  have h3 : ⌊x⌋ = 256 * (⌊x⌋ / 256) + ⌊x⌋ % 256 := (Int.ediv_add_emod _ _).symm
  have h4 : 0 ≤ ⌊x⌋ % 256 := Int.emod_nonneg _ (by norm_num)
  have h5 : ⌊x⌋ % 256 < 256 := Int.emod_lt_of_pos _ (by norm_num)
  have h6 : ((⌊x⌋ : ℤ) : ℚ) = 256 * ((⌊x⌋ / 256 : ℤ) : ℚ) + ((⌊x⌋ % 256 : ℤ) : ℚ) := by
    exact_mod_cast h3
  have h7 : (0 : ℚ) ≤ ((⌊x⌋ % 256 : ℤ) : ℚ) := by exact_mod_cast h4
  have h8 : ((⌊x⌋ % 256 : ℤ) : ℚ) ≤ 255 := by exact_mod_cast (show ⌊x⌋ % 256 ≤ 255 by omega)
  constructor
  · rw [le_div_iff₀ (by norm_num)]; linarith
  · rw [div_lt_iff₀ (by norm_num)]; linarith

theorem digits_eq (n : ℕ) : ∀ (number : ℚ) (hpos : 0 < number) (cs : List (List ℕ)),
    ⌊number⌋.toNat = n →
    EncodeSample.digits number hpos cs
      = cs ++ (sampleDigits n).map fun (d : ℕ) => runeString (d : ℤ) := by
  induction n using Nat.strong_induction_on with
  | _ n ih =>
    intro number hpos cs hn
    have hfl : (0 : ℤ) ≤ ⌊number⌋ := Int.floor_nonneg.mpr hpos.le
    have hcast : ⌊number⌋ = (n : ℤ) := by omega
    have hmod : Int.tmod ⌊number⌋ 256 = ((n % 256 : ℕ) : ℤ) := by
      rw [hcast]; exact (Int.ofNat_tmod n 256).symm
    have hdiv : ⌊number / 256⌋ = ((n / 256 : ℕ) : ℤ) := by
      rw [floor_div_256, hcast]; rfl
    rw [EncodeSample.digits]
    simp only [hmod, hdiv]
    by_cases hz : n / 256 = 0
    · have hlt : n < 256 := by omega
      have : (((n / 256 : ℕ) : ℤ) : ℚ) = 0 := by simp [hz]
      rw [dif_pos this]
      congr 1
      unfold sampleDigits
      by_cases h0 : n = 0
      · subst h0; simp
      · rw [if_neg h0, Nat.digits_def' (by norm_num) (Nat.pos_of_ne_zero h0), hz]
        simp
    · have hne : ¬ (((n / 256 : ℕ) : ℤ) : ℚ) = 0 := by
        intro h; apply hz; exact_mod_cast h
      rw [dif_neg hne]
      have hn0 : n ≠ 0 := by omega
      have hlt : n / 256 < n := Nat.div_lt_self (Nat.pos_of_ne_zero hn0) (by norm_num)
      rw [ih (n / 256) hlt _ _ _ (by rw [Int.floor_intCast, Int.toNat_ofNat])]
      unfold sampleDigits
      rw [if_neg hn0, if_neg hz, Nat.digits_def' (by norm_num : 1 < 256) (Nat.pos_of_ne_zero hn0)]
      simp

theorem digits_eq' (number : ℚ) (hpos : 0 < number) (cs : List (List ℕ)) :
    EncodeSample.digits number hpos cs
      = cs ++ (sampleDigits ⌊number⌋.toNat).map fun (d : ℕ) => runeString (d : ℤ) :=
  digits_eq _ number hpos cs rfl

/-- Method `EncodeSample` in closed form: the wrap of a negative number, the overflow test,
then the encoded string of the value that is left. -/
theorem EncodeSample_eq (this : WavForge) (number : ℚ) :
    this.EncodeSample number =
      if (2 : ℚ) ^ this.bitsPerSample
          < (if number < 0 then number + 2 ^ this.bitsPerSample else number) then
        ([], some (error.Overflow (if number < 0 then number + 2 ^ this.bitsPerSample else number)
          this.bitsPerSample))
      else
        (encodedString this.bitsPerSample
          (if (if number < 0 then number + 2 ^ this.bitsPerSample else number)
              = 2 ^ this.bitsPerSample then 0
           else (if number < 0 then number + 2 ^ this.bitsPerSample else number)), none) := by
  have henc : ∀ v : ℚ, EncodeSample.encode this.bitsPerSample v
      = (encodedString this.bitsPerSample v, none) := by
    intro v
    unfold EncodeSample.encode encodedString stringsJoin
    by_cases hv : 0 < v
    · simp only [gt_iff_lt, hv, dite_true, if_true, digits_eq', pad_eq, List.nil_append,
        List.length_map, sub_zero]
    · simp only [gt_iff_lt, hv, dite_false, if_false, pad_eq, List.nil_append,
        List.length_map, sub_zero, List.map_nil]
      rfl
  unfold WavForge.EncodeSample
  simp only []
  generalize (if number < 0 then number + 2 ^ this.bitsPerSample else number) = w
  generalize ((2 : ℚ) ^ this.bitsPerSample) = m
  by_cases h1 : m < w
  · rw [if_pos h1.le, if_neg h1.ne', if_pos h1]
  · rw [if_neg h1]
    by_cases h4 : w = m
    · rw [if_pos h4.ge, if_pos h4, if_pos h4, henc]
    · have h5 : ¬ w ≥ m := fun h => h4 (le_antisymm (not_lt.mp h1) h)
      rw [if_neg h5, if_neg h4, henc]

theorem sampleDigits_of_lt (n : ℕ) (h : n < 256) : sampleDigits n = [n] := by
  unfold sampleDigits
  split
  · subst_vars; rfl
  · rename_i h0
    rw [Nat.digits_def' (by norm_num) (Nat.pos_of_ne_zero h0), Nat.mod_eq_of_lt h,
      Nat.div_eq_of_lt h, Nat.digits_zero]

theorem sampleDigits_of_lt_two (n : ℕ) (h0 : 256 ≤ n) (h : n < 65536) :
    sampleDigits n = [n % 256, n / 256] := by
  unfold sampleDigits
  have h1 : n / 256 < 256 := by omega
  have h2 : 0 < n / 256 := by omega
  rw [if_neg (by omega), Nat.digits_def' (by norm_num) (by omega),
    Nat.digits_def' (by norm_num) h2, Nat.mod_eq_of_lt h1,
    Nat.div_eq_of_lt h1, Nat.digits_zero]

/-- The state of the encoder does not matter beyond the bit depth. -/
theorem EncodeSample_congr (a c : WavForge) (h : a.bitsPerSample = c.bitsPerSample) (x : ℚ) :
    a.EncodeSample x = c.EncodeSample x := by
  rw [EncodeSample_eq, EncodeSample_eq, h]

/-- At the default 16 bits the amplitude 0 is encoded as a single zero byte. -/
theorem EncodeSample_default_zero (this : WavForge) (h : this.bitsPerSample = 16) :
    this.EncodeSample 0 = ([0], none) := by
  rw [EncodeSample_eq, h]
  norm_num [encodedString]
  decide

/-- At 8 bits the amplitude 128 is encoded as the two bytes of the UTF-8 form of U+0080. -/
theorem EncodeSample_eight_128 (this : WavForge) (h : this.bitsPerSample = 8) :
    this.EncodeSample 128 = ([0xC2, 0x80], none) := by
  rw [EncodeSample_eq, h]
  norm_num [encodedString]
  simp [sampleDigits_of_lt]
  decide

/-! ## Claims about `EncodeSample` -/

/-- C3: the round-trip law fails on the code. At 8 bits the amplitude 128 is encoded without
error as the two bytes `0xC2 0x80`, the UTF-8 form of the digit 128, and these decode to
32962, not to 128. -/
theorem EncodeSample_roundtrip_fails :
    (WavForge.zero.InitConfig.SetBitsPerSample 8).EncodeSample 128 = ([0xC2, 0x80], none)
      ∧ decode [0xC2, 0x80] = 32962 := by
  exact ⟨EncodeSample_eight_128 _ rfl, by decide⟩

/-- C4: the encoded length is not always `⌈b / 8⌉`. At 16 bits the amplitude 0 yields one
zero byte, not two (the padding loop stops halfway); at 8 bits the amplitude 128 yields two
bytes, not one (the digit is converted to UTF-8). -/
theorem EncodeSample_length_fails :
    WavForge.zero.InitConfig.EncodeSample 0 = ([0], none)
      ∧ ((WavForge.zero.InitConfig.SetBitsPerSample 8).EncodeSample 128).1.length = 2 := by
  constructor
  · exact EncodeSample_default_zero _ rfl
  · rw [EncodeSample_eight_128 _ rfl]
    rfl

/-- C5: an amplitude strictly above `2 ^ bitsPerSample` makes `EncodeSample` return the
overflow error and the empty string; the amplitude `2 ^ bitsPerSample` itself is no error. -/
theorem EncodeSample_overflow (this : WavForge) (number : ℚ)
    (h : (2 : ℚ) ^ this.bitsPerSample < number) :
    this.EncodeSample number = ([], some (error.Overflow number this.bitsPerSample))
      ∧ (this.EncodeSample (2 ^ this.bitsPerSample)).2 = none := by
  have hm : (0 : ℚ) < 2 ^ this.bitsPerSample := by positivity
  constructor
  · rw [EncodeSample_eq, if_neg (not_lt.mpr (hm.le.trans h.le)), if_pos h]
  · rw [EncodeSample_eq, if_neg (not_lt.mpr hm.le), if_neg (lt_irrefl _)]

theorem EncodeSample_overflow_witness :
    (2 : ℚ) ^ WavForge.zero.InitConfig.bitsPerSample < 65537
      ∧ WavForge.zero.InitConfig.EncodeSample 65537 = ([], some (error.Overflow 65537 16))
      ∧ (WavForge.zero.InitConfig.EncodeSample 65536).2 = none := by
  have h : (2 : ℚ) ^ WavForge.zero.InitConfig.bitsPerSample < 65537 := by
    norm_num [WavForge.InitConfig]
  have h16 : (2 : ℚ) ^ WavForge.zero.InitConfig.bitsPerSample = 65536 := by
    norm_num [WavForge.InitConfig]
  have := EncodeSample_overflow WavForge.zero.InitConfig 65537 h
  rw [h16] at this
  exact ⟨h, this⟩

/-- C6: for `0 < x ≤ 2 ^ bitsPerSample`, `EncodeSample (-x)` returns what
`EncodeSample (2 ^ bitsPerSample - x)` returns, and that is not an error. -/
theorem EncodeSample_neg_wrap (this : WavForge) (x : ℚ) (h0 : 0 < x)
    (h1 : x ≤ 2 ^ this.bitsPerSample) :
    this.EncodeSample (-x) = this.EncodeSample (2 ^ this.bitsPerSample - x)
      ∧ (this.EncodeSample (-x)).2 = none := by
  have hneg : -x < 0 := by linarith
  have hnn : ¬ (2 : ℚ) ^ this.bitsPerSample - x < 0 := by linarith
  have hw : -x + (2 : ℚ) ^ this.bitsPerSample = 2 ^ this.bitsPerSample - x := by ring
  have hle : ¬ (2 : ℚ) ^ this.bitsPerSample < 2 ^ this.bitsPerSample - x := by linarith
  constructor
  · rw [EncodeSample_eq, EncodeSample_eq, if_pos hneg, if_neg hnn, hw]
  · rw [EncodeSample_eq, if_pos hneg, hw, if_neg hle]

theorem EncodeSample_neg_wrap_witness :
    (0 : ℚ) < 1 ∧ (1 : ℚ) ≤ 2 ^ WavForge.zero.InitConfig.bitsPerSample
      ∧ WavForge.zero.InitConfig.EncodeSample (-1)
          = WavForge.zero.InitConfig.EncodeSample (2 ^ WavForge.zero.InitConfig.bitsPerSample - 1)
      ∧ (WavForge.zero.InitConfig.EncodeSample (-1)).2 = none :=
  have h : (1 : ℚ) ≤ 2 ^ WavForge.zero.InitConfig.bitsPerSample := by
    norm_num [WavForge.InitConfig]
  ⟨by norm_num, h, EncodeSample_neg_wrap WavForge.zero.InitConfig 1 (by norm_num) h⟩

/-! ## The header -/

theorem littleEndian_two (n : ℕ) : littleEndian 2 n = [n % 256, n / 256 % 256] := by
  simp [littleEndian, List.range_succ]

theorem littleEndian_four (n : ℕ) :
    littleEndian 4 n = [n % 256, n / 256 % 256, n / 65536 % 256, n / 16777216 % 256] := by
  simp [littleEndian, List.range_succ]

/-- The 44 bytes of the header, written out. -/
theorem getWavHeader_eq (this : WavForge) :
    this.getWavHeader =
      [0x52, 0x49, 0x46, 0x46] ++ littleEndian 4 this.wavHeader.chunkSize
        ++ [0x57, 0x41, 0x56, 0x45] ++ [0x66, 0x6D, 0x74] ++ [0]
        ++ littleEndian 4 16 ++ littleEndian 2 1
        ++ littleEndian 2 this.wavHeader.wChannels
        ++ littleEndian 4 this.wavHeader.dwSamplesPerSec
        ++ littleEndian 4 this.wavHeader.dwAvgBytesPerSec
        ++ littleEndian 2 this.wavHeader.wBlockAlign
        ++ littleEndian 2 this.wavHeader.uiBitsPerSample
        ++ [0x64, 0x61, 0x74, 0x61] ++ littleEndian 4 this.wavHeader.subchunk_2_size := by
  have h1 : copyBytes (List.replicate 4 0) (asciiBytes "RIFF") = [0x52, 0x49, 0x46, 0x46] := by
    decide
  have h2 : copyBytes (List.replicate 4 0) (asciiBytes "WAVE") = [0x57, 0x41, 0x56, 0x45] := by
    decide
  have h3 : copyBytes (List.replicate 3 0) (asciiBytes "fmt") = [0x66, 0x6D, 0x74] := by
    decide
  have h4 : copyBytes (List.replicate 4 0) (asciiBytes "data") = [0x64, 0x61, 0x74, 0x61] := by
    decide
  simp only [WavForge.getWavHeader, WavHeader.memory, WavForge.wavHeader, h1, h2, h3, h4]

theorem getWavHeader_length (this : WavForge) : this.getWavHeader.length = 44 := by
  rw [getWavHeader_eq]
  simp [littleEndian]

theorem uint32OfFloat_natCast (m : ℕ) : uint32OfFloat (m : ℚ) = m % 2 ^ 32 := by
  unfold uint32OfFloat truncate
  rw [if_pos (Nat.cast_nonneg m), Int.floor_natCast]
  omega

theorem uint16OfFloat_natCast (m : ℕ) : uint16OfFloat (m : ℚ) = m % 2 ^ 16 := by
  unfold uint16OfFloat truncate
  rw [if_pos (Nat.cast_nonneg m), Int.floor_natCast]
  omega

theorem uint16OfInt_natCast (m : ℕ) : uint16OfInt (m : ℤ) = m % 2 ^ 16 := by
  unfold uint16OfInt
  omega

theorem decode_two (a b : ℕ) : decode [a, b] = a + 256 * b := by
  simp [decode]

theorem decode_four (a b c d : ℕ) :
    decode [a, b, c, d] = a + 256 * (b + 256 * (c + 256 * d)) := by
  simp [decode]

theorem decode_littleEndian_two (n : ℕ) (h : n < 2 ^ 16) : decode (littleEndian 2 n) = n := by
  rw [littleEndian_two, decode_two]; omega

theorem decode_littleEndian_four (n : ℕ) (h : n < 2 ^ 32) : decode (littleEndian 4 n) = n := by
  rw [littleEndian_four, decode_four]; omega

/-- The header fields of a configuration given by natural numbers, `bitsPerSample = 8 * k`. -/
theorem wavHeader_nat (c r k n : ℕ) (out : List ℕ) :
    let w : WavForge :=
      { channels := c, sampleRate := r, bitsPerSample := 8 * k, sampleCount := n, output := out }
    w.wavHeader.chunkSize = (n * c * k + 36) % 2 ^ 32
      ∧ w.wavHeader.wChannels = c % 2 ^ 16
      ∧ w.wavHeader.dwSamplesPerSec = r % 2 ^ 32
      ∧ w.wavHeader.dwAvgBytesPerSec = (r * c * k) % 2 ^ 32
      ∧ w.wavHeader.wBlockAlign = (c * k) % 2 ^ 16
      ∧ w.wavHeader.uiBitsPerSample = (8 * k) % 2 ^ 16
      ∧ w.wavHeader.subchunk_2_size = (n * c * k) % 2 ^ 32 := by
  intro w
  have e1 : (n : ℚ) * (c : ℚ) * ((8 * (k : ℤ) : ℤ) : ℚ) / 8 = ((n * c * k : ℕ) : ℚ) := by
    push_cast; ring
  have e2 : (n : ℚ) * (c : ℚ) * ((8 * (k : ℤ) : ℤ) : ℚ) / 8 + 36
      = ((n * c * k + 36 : ℕ) : ℚ) := by
    push_cast; ring
  have e3 : (r : ℚ) * (c : ℚ) * ((8 * (k : ℤ) : ℤ) : ℚ) / 8 = ((r * c * k : ℕ) : ℚ) := by
    push_cast; ring
  have e4 : (c : ℚ) * ((8 * (k : ℤ) : ℤ) : ℚ) / 8 = ((c * k : ℕ) : ℚ) := by
    push_cast; ring
  have e5 : ((8 * (k : ℤ) : ℤ) : ℚ) = ((8 * k : ℕ) : ℚ) := by push_cast; ring
  simp only [w, WavForge.wavHeader, WavForge.getSampleCount, Int.cast_natCast]
  have e6 : ((n * c * k : ℕ) : ℚ) + 36 = ((n * c * k + 36 : ℕ) : ℚ) := by push_cast; ring
  rw [e1, e6, e3, e4, e5]
  exact ⟨uint32OfFloat_natCast _, uint16OfInt_natCast c, uint32OfFloat_natCast r,
    uint32OfFloat_natCast _, uint16OfFloat_natCast _, uint16OfFloat_natCast _,
    uint32OfFloat_natCast _⟩

/-- The header as an explicit list of 44 bytes. -/
theorem getWavHeader_bytes (this : WavForge) :
    this.getWavHeader =
      [0x52, 0x49, 0x46, 0x46,
        this.wavHeader.chunkSize % 256, this.wavHeader.chunkSize / 256 % 256,
        this.wavHeader.chunkSize / 65536 % 256, this.wavHeader.chunkSize / 16777216 % 256,
        0x57, 0x41, 0x56, 0x45, 0x66, 0x6D, 0x74, 0, 16, 0, 0, 0, 1, 0,
        this.wavHeader.wChannels % 256, this.wavHeader.wChannels / 256 % 256,
        this.wavHeader.dwSamplesPerSec % 256, this.wavHeader.dwSamplesPerSec / 256 % 256,
        this.wavHeader.dwSamplesPerSec / 65536 % 256,
        this.wavHeader.dwSamplesPerSec / 16777216 % 256,
        this.wavHeader.dwAvgBytesPerSec % 256, this.wavHeader.dwAvgBytesPerSec / 256 % 256,
        this.wavHeader.dwAvgBytesPerSec / 65536 % 256,
        this.wavHeader.dwAvgBytesPerSec / 16777216 % 256,
        this.wavHeader.wBlockAlign % 256, this.wavHeader.wBlockAlign / 256 % 256,
        this.wavHeader.uiBitsPerSample % 256, this.wavHeader.uiBitsPerSample / 256 % 256,
        0x64, 0x61, 0x74, 0x61,
        this.wavHeader.subchunk_2_size % 256, this.wavHeader.subchunk_2_size / 256 % 256,
        this.wavHeader.subchunk_2_size / 65536 % 256,
        this.wavHeader.subchunk_2_size / 16777216 % 256] := by
  rw [getWavHeader_eq]
  simp only [littleEndian_two, littleEndian_four, List.cons_append, List.nil_append]

theorem fieldAt_four (n : ℕ) (h : n < 2 ^ 32) :
    decode [n % 256, n / 256 % 256, n / 65536 % 256, n / 16777216 % 256] = n := by
  rw [decode_four]; omega

theorem fieldAt_two (n : ℕ) (h : n < 2 ^ 16) : decode [n % 256, n / 256 % 256] = n := by
  rw [decode_two]; omega

/-- C8: for a configuration with at least one channel, a whole positive sample rate, a bit
depth that is a positive multiple of 8 and a sample count for which every field fits its
width, `getWavHeader` returns 44 bytes holding "RIFF", "WAVE" and "data" at offsets 0, 8
and 36 and the little-endian fields ChunkSize, Subchunk1Size, AudioFormat, NumChannels,
SampleRate, ByteRate, BlockAlign, BitsPerSample and Subchunk2Size with the values of the
specification. -/
theorem getWavHeader_fields (this : WavForge)
    (hc : 1 ≤ this.channels) (hcw : this.channels < 2 ^ 16)
    (hr : ∃ r : ℕ, 0 < r ∧ this.sampleRate = r) (hrw : this.sampleRate < 2 ^ 32)
    (hb : 0 < this.bitsPerSample) (hb8 : 8 ∣ this.bitsPerSample)
    (hbw : this.bitsPerSample < 2 ^ 16) (hn : 0 ≤ this.sampleCount)
    (hrate : this.sampleRate * this.channels * this.bitsPerSample / 8 < 2 ^ 32)
    (hblock : (this.channels : ℚ) * this.bitsPerSample / 8 < 2 ^ 16)
    (hchunk : (this.sampleCount : ℚ) * this.channels * this.bitsPerSample / 8 + 36 < 2 ^ 32) :
    this.getWavHeader.length = 44
      ∧ bytesAt this.getWavHeader 0 4 = asciiBytes "RIFF"
      ∧ (fieldAt this.getWavHeader 4 4 : ℚ)
          = 36 + this.sampleCount * this.channels * this.bitsPerSample / 8
      ∧ bytesAt this.getWavHeader 8 4 = asciiBytes "WAVE"
      ∧ fieldAt this.getWavHeader 16 4 = 16
      ∧ fieldAt this.getWavHeader 20 2 = 1
      ∧ (fieldAt this.getWavHeader 22 2 : ℤ) = this.channels
      ∧ (fieldAt this.getWavHeader 24 4 : ℚ) = this.sampleRate
      ∧ (fieldAt this.getWavHeader 28 4 : ℚ)
          = this.sampleRate * this.channels * this.bitsPerSample / 8
      ∧ (fieldAt this.getWavHeader 32 2 : ℚ) = this.channels * this.bitsPerSample / 8
      ∧ (fieldAt this.getWavHeader 34 2 : ℤ) = this.bitsPerSample
      ∧ bytesAt this.getWavHeader 36 4 = asciiBytes "data"
      ∧ (fieldAt this.getWavHeader 40 4 : ℚ)
          = this.sampleCount * this.channels * this.bitsPerSample / 8 := by
  obtain ⟨channels, sampleRate, bitsPerSample, sampleCount, output⟩ := this
  simp only at hc hcw hr hrw hb hb8 hbw hn hrate hblock hchunk ⊢
  obtain ⟨r, hr0, rfl⟩ := hr
  obtain ⟨k', rfl⟩ := hb8
  obtain ⟨c, rfl⟩ := Int.eq_ofNat_of_zero_le (by omega : 0 ≤ channels)
  obtain ⟨k, rfl⟩ := Int.eq_ofNat_of_zero_le (by omega : 0 ≤ k')
  obtain ⟨n, rfl⟩ := Int.eq_ofNat_of_zero_le hn
  have e1 : (n : ℚ) * (c : ℚ) * ((8 * (k : ℤ) : ℤ) : ℚ) / 8 = ((n * c * k : ℕ) : ℚ) := by
    push_cast; ring
  have e3 : (r : ℚ) * (c : ℚ) * ((8 * (k : ℤ) : ℤ) : ℚ) / 8 = ((r * c * k : ℕ) : ℚ) := by
    push_cast; ring
  have e4 : (c : ℚ) * ((8 * (k : ℤ) : ℤ) : ℚ) / 8 = ((c * k : ℕ) : ℚ) := by
    push_cast; ring
  simp only [Int.cast_natCast] at hrate hblock hchunk ⊢
  rw [e3] at hrate
  rw [e4] at hblock
  rw [e1] at hchunk
  rw [e1, e3, e4]
  have b1 : c < 2 ^ 16 := by exact_mod_cast hcw
  have b2 : r < 2 ^ 32 := by exact_mod_cast hrw
  have b3 : 8 * k < 2 ^ 16 := by omega
  have b4 : r * c * k < 2 ^ 32 := by exact_mod_cast hrate
  have b5 : c * k < 2 ^ 16 := by exact_mod_cast hblock
  have b6 : n * c * k + 36 < 2 ^ 32 := by exact_mod_cast hchunk
  have b7 : n * c * k < 2 ^ 32 := by omega
  obtain ⟨f1, f2, f3, f4, f5, f6, f7⟩ := wavHeader_nat c r k n output
  rw [Nat.mod_eq_of_lt b6] at f1
  rw [Nat.mod_eq_of_lt b1] at f2
  rw [Nat.mod_eq_of_lt b2] at f3
  rw [Nat.mod_eq_of_lt b4] at f4
  rw [Nat.mod_eq_of_lt b5] at f5
  rw [Nat.mod_eq_of_lt b3] at f6
  rw [Nat.mod_eq_of_lt b7] at f7
  refine ⟨getWavHeader_length _, ?_⟩
  rw [getWavHeader_bytes, f1, f2, f3, f4, f5, f6, f7]
  simp only [fieldAt, bytesAt, List.drop_succ_cons, List.drop_zero, List.take_succ_cons,
    List.take_zero, fieldAt_four _ b6, fieldAt_two _ b1, fieldAt_four _ b2, fieldAt_four _ b4,
    fieldAt_two _ b5, fieldAt_two _ b3, fieldAt_four _ b7]
  refine ⟨by decide, ?_, by decide, by decide, by decide, trivial, trivial, trivial, trivial,
    ?_, by decide, trivial⟩
  · push_cast; ring
  · push_cast; ring

/-- The default configuration with 1000 frames: ChunkSize 4036, ByteRate 176400,
BlockAlign 4, Subchunk2Size 4000. -/
theorem getWavHeader_fields_witness :
    fieldAt ({ WavForge.zero.InitConfig with sampleCount := 1000 }).getWavHeader 4 4 = 4036
      ∧ fieldAt ({ WavForge.zero.InitConfig with sampleCount := 1000 }).getWavHeader 28 4
          = 176400
      ∧ fieldAt ({ WavForge.zero.InitConfig with sampleCount := 1000 }).getWavHeader 32 2 = 4
      ∧ fieldAt ({ WavForge.zero.InitConfig with sampleCount := 1000 }).getWavHeader 40 4
          = 4000 := by
  have h := getWavHeader_fields { WavForge.zero.InitConfig with sampleCount := 1000 }
    (by norm_num [WavForge.InitConfig]) (by norm_num [WavForge.InitConfig])
    ⟨44100, by norm_num, by norm_num [WavForge.InitConfig]⟩
    (by norm_num [WavForge.InitConfig]) (by norm_num [WavForge.InitConfig])
    (by norm_num [WavForge.InitConfig]) (by norm_num [WavForge.InitConfig])
    (by norm_num [WavForge.InitConfig]) (by norm_num [WavForge.InitConfig])
    (by norm_num [WavForge.InitConfig]) (by norm_num [WavForge.InitConfig])
  obtain ⟨-, -, h4, -, -, -, -, -, h28, h32, -, -, h40⟩ := h
  norm_num [WavForge.InitConfig] at h4 h28 h32 h40
  exact ⟨by exact_mod_cast h4, by exact_mod_cast h28, by exact_mod_cast h32,
    by exact_mod_cast h40⟩

/-- C9: the Subchunk1ID is not space-padded. For every configuration the bytes 12 to 15 of
the header are `0x66 0x6D 0x74 0x00`: the struct field holds the three bytes "fmt" and the
fourth byte is the zero padding before `subchunk_1_size`. -/
theorem getWavHeader_fmt_bytes (this : WavForge) :
    bytesAt this.getWavHeader 12 4 = [0x66, 0x6D, 0x74, 0x00]
      ∧ bytesAt this.getWavHeader 12 4 ≠ asciiBytes "fmt " := by
  rw [getWavHeader_bytes]
  simp only [bytesAt, List.drop_succ_cons, List.drop_zero, List.take_succ_cons, List.take_zero]
  exact ⟨trivial, by decide⟩

/-! ## A bound on the length of an encoded string -/

theorem runeString_length_le_two (d : ℕ) (h : d < 256) : (runeString (d : ℤ)).length ≤ 2 := by
  by_cases h1 : d < 128
  · rw [runeString_of_lt_128 d h1]; simp
  · rw [runeString_of_ge_128 d (by omega) h]; simp

theorem sampleDigits_lt (n d : ℕ) (h : d ∈ sampleDigits n) : d < 256 := by
  unfold sampleDigits at h
  split at h
  · simp at h; omega
  · exact Nat.digits_lt_base (by norm_num) h

theorem sampleDigits_length_pos (n : ℕ) : 1 ≤ (sampleDigits n).length := by
  unfold sampleDigits
  split
  · simp
  · rename_i h
    rw [Nat.digits_def' (by norm_num) (Nat.pos_of_ne_zero h)]
    simp

theorem flatten_map_runeString_length_le (ds : List ℕ) (h : ∀ d ∈ ds, d < 256) :
    ((ds.map fun (d : ℕ) => runeString (d : ℤ)).flatten).length ≤ 2 * ds.length := by
  induction ds with
  | nil => simp
  | cons d ds ih =>
    have h1 := runeString_length_le_two d (h d (List.mem_cons_self _ _))
    have h2 := ih (fun x hx => h x (List.mem_cons_of_mem _ hx))
    simp only [List.map_cons, List.flatten_cons, List.length_append, List.length_cons]
    omega

theorem length_flatten_replicate_zero (k : ℕ) :
    ((List.replicate k [(0 : ℕ)]).flatten).length = k := by
  induction k with
  | zero => rfl
  | succ k ih => simp [List.replicate_succ, ih]

/-- A right shift by three is the floored division by eight. -/
theorem shiftRight_three (x : ℤ) : x >>> (3 : ℤ) = x / 8 := by
  cases x with
  | ofNat m =>
    have h := Int.shiftRight_coe_nat m 3
    simp only [Nat.cast_ofNat] at h
    rw [Int.ofNat_eq_coe, h, Nat.shiftRight_eq_div_pow]
    norm_num
  | negSucc m =>
    have h := Int.shiftRight_negSucc m 3
    simp only [Nat.cast_ofNat] at h
    rw [h, Nat.shiftRight_eq_div_pow]
    rfl

/-- Eight times `⌈b / 8⌉` is at least `b`. -/
theorem le_eight_mul_ceil (b W : ℤ) (h : -((-b) >>> 3) = W) : b ≤ 8 * W := by
  rw [shiftRight_three] at h
  omega

/-- The digits of the whole part of a value below `2 ^ b` are at most `max 1 ⌈b / 8⌉`. -/
theorem sampleDigits_length_le (b : ℤ) (v : ℚ) (h0 : 0 < v) (h1 : v < 2 ^ b) :
    ((sampleDigits ⌊v⌋.toNat).length : ℤ) ≤ max (1 : ℤ) (-((-b) >>> 3)) := by
  have hfl : (0 : ℤ) ≤ ⌊v⌋ := Int.floor_nonneg.mpr h0.le
  obtain ⟨n, hn⟩ := Int.eq_ofNat_of_zero_le hfl
  rw [hn, Int.toNat_ofNat]
  generalize hWdef : -((-b) >>> 3) = W0
  by_cases hz : n = 0
  · subst hz
    simp [sampleDigits]
  · have hn1 : (1 : ℚ) ≤ (n : ℚ) := by exact_mod_cast Nat.one_le_iff_ne_zero.mpr hz
    have hnv : (n : ℚ) ≤ v := by
      have := Int.floor_le v
      rw [hn] at this
      exact_mod_cast this
    have hb : 0 < b := by
      by_contra hb
      have : (2 : ℚ) ^ b ≤ 1 := zpow_le_one_of_nonpos₀ (by norm_num) (not_lt.mp hb)
      linarith
    obtain ⟨e, he⟩ := Int.eq_ofNat_of_zero_le hb.le
    have hW := le_eight_mul_ceil b W0 hWdef
    obtain ⟨W, hWe⟩ := Int.eq_ofNat_of_zero_le (by omega : 0 ≤ W0)
    rw [hWe] at hW ⊢
    have heW : e ≤ 8 * W := by omega
    have hlt : n < 256 ^ W := by
      have h2 : (n : ℚ) < (2 : ℚ) ^ (e : ℤ) := by rw [← he]; linarith
      have h3 : n < 2 ^ e := by
        rw [zpow_natCast] at h2
        exact_mod_cast h2
      calc n < 2 ^ e := h3
        _ ≤ 2 ^ (8 * W) := Nat.pow_le_pow_right (by norm_num) heW
        _ = 256 ^ W := by rw [pow_mul]; norm_num
    have hk := Nat.base_pow_length_digits_le 256 n (by norm_num) hz
    have hk2 : 256 ^ (Nat.digits 256 n).length < 256 ^ (W + 1) := by
      calc 256 ^ (Nat.digits 256 n).length ≤ 256 * n := hk
        _ < 256 * 256 ^ W := by omega
        _ = 256 ^ (W + 1) := by rw [pow_succ]; ring
    have hk3 : (Nat.digits 256 n).length < W + 1 :=
      (Nat.pow_lt_pow_iff_right (by norm_num : 1 < 256)).mp hk2
    unfold sampleDigits
    rw [if_neg hz]
    have : ((Nat.digits 256 n).length : ℤ) ≤ (W : ℤ) := by exact_mod_cast Nat.lt_succ_iff.mp hk3
    exact le_max_of_le_right this

/-- The string of a value that passed the overflow test has at most `encodedBound b` bytes. -/
theorem encodedString_length_le (b : ℤ) (v : ℚ) (h : v < 2 ^ b) :
    ((encodedString b v).length : ℤ) ≤ encodedBound b := by
  unfold encodedString encodedBound
  simp only [List.flatten_append, List.length_append, length_flatten_replicate_zero,
    Nat.cast_add]
  by_cases hv : 0 < v
  · rw [if_pos hv]
    have h1 := flatten_map_runeString_length_le (sampleDigits ⌊v⌋.toNat)
      (fun d hd => sampleDigits_lt _ d hd)
    have h2 := sampleDigits_length_le b v hv h
    have h3 := sampleDigits_length_pos ⌊v⌋.toNat
    generalize (sampleDigits ⌊v⌋.toNat).length = k at h1 h2 h3
    generalize ((List.map (fun (d : ℕ) => runeString (d : ℤ)) (sampleDigits ⌊v⌋.toNat)).flatten).length
      = l at h1
    generalize -((-b) >>> 3) = W at h2 ⊢
    rcases le_total 1 W with hW | hW
    · rw [max_eq_right hW] at h2 ⊢
      omega
    · rw [max_eq_left hW] at h2 ⊢
      omega
  · rw [if_neg hv]
    simp only [List.map_nil, List.flatten_nil, List.length_nil, Nat.cast_zero, sub_zero,
      zero_add]
    generalize -((-b) >>> 3) = W
    rcases le_total 1 W with hW | hW
    · rw [max_eq_right hW]
      omega
    · rw [max_eq_left hW]
      omega

/-- Whatever the amplitude, `EncodeSample` returns at most `encodedBound b` bytes. -/
theorem EncodeSample_length_le (this : WavForge) (x : ℚ) :
    ((this.EncodeSample x).1.length : ℤ) ≤ encodedBound this.bitsPerSample := by
  have hm : (0 : ℚ) < 2 ^ this.bitsPerSample := by positivity
  have hpos : (0 : ℤ) ≤ encodedBound this.bitsPerSample := by
    unfold encodedBound
    have := le_max_left (1 : ℤ) (-((-this.bitsPerSample) >>> 3))
    omega
  rw [EncodeSample_eq]
  generalize (if x < 0 then x + 2 ^ this.bitsPerSample else x) = w
  by_cases h1 : (2 : ℚ) ^ this.bitsPerSample < w
  · rw [if_pos h1]
    simpa using hpos
  · rw [if_neg h1]
    by_cases h2 : w = 2 ^ this.bitsPerSample
    · rw [if_pos h2]
      exact encodedString_length_le _ _ hm
    · rw [if_neg h2]
      exact encodedString_length_le _ _ (lt_of_le_of_ne (not_lt.mp h1) h2)
/-! ## The rounded product and its floor -/

theorem floor_le_roundHalfEven (x : ℚ) : ⌊x⌋ ≤ roundHalfEven x := by
  unfold roundHalfEven
  split_ifs <;> omega

theorem roundHalfEven_le (x : ℚ) : (roundHalfEven x : ℚ) ≤ x + 1 / 2 := by
  have hf : Int.fract x = x - ⌊x⌋ := rfl
  have h0 := Int.fract_nonneg x
  have h1 := Int.fract_lt_one x
  unfold roundHalfEven
  split_ifs with a b c
  · linarith
  · push_cast; linarith
  · linarith
  · push_cast; linarith

theorem float64Round_zero : float64Round 0 = 0 := by
  simp [float64Round, roundHalfEven]

/-- A whole number below `2 ^ 53` that is at most `p` is at most the rounded `p`: rounding
does not cross a `float64`. -/
theorem le_float64Round (p : ℚ) (n : ℤ) (hn : 0 ≤ n) (hnp : (n : ℚ) ≤ p) (h53 : p < 2 ^ 53) :
    (n : ℚ) ≤ float64Round p := by
  rcases eq_or_lt_of_le (le_trans (by exact_mod_cast hn : (0 : ℚ) ≤ n) hnp) with h0 | hpos
  · rw [← h0, float64Round_zero]; rw [← h0] at hnp; exact hnp
  have hL : Int.log 2 |p| < 53 := by
    rw [abs_of_pos hpos]
    have h : p < ((2 : ℕ) : ℚ) ^ (53 : ℤ) := by
      rw [Nat.cast_ofNat]
      exact_mod_cast h53
    exact (Int.lt_zpow_iff_log_lt (by norm_num : 1 < 2) hpos).mp h
  unfold float64Round
  simp only []
  generalize he : max (Int.log 2 |p|) (-1022) = e
  have he52 : e ≤ 52 := by rw [← he]; exact max_le (by omega) (by norm_num)
  obtain ⟨k, hk⟩ := Int.eq_ofNat_of_zero_le (by omega : 0 ≤ 52 - e)
  have hs : (2 : ℚ) ^ (e - 52) = ((2 : ℚ) ^ k)⁻¹ := by
    have : e - 52 = -(k : ℤ) := by omega
    rw [this, zpow_neg, zpow_natCast]
  have hpow : (0 : ℚ) < 2 ^ k := by positivity
  rw [hs]
  have hm : ((n * 2 ^ k : ℤ) : ℚ) ≤ p / ((2 : ℚ) ^ k)⁻¹ := by
    rw [div_inv_eq_mul]
    push_cast
    exact mul_le_mul_of_nonneg_right hnp hpow.le
  have h1 : n * 2 ^ k ≤ roundHalfEven (p / ((2 : ℚ) ^ k)⁻¹) :=
    le_trans (Int.le_floor.mpr hm) (floor_le_roundHalfEven _)
  have h2 : ((n * 2 ^ k : ℤ) : ℚ) ≤ (roundHalfEven (p / ((2 : ℚ) ^ k)⁻¹) : ℚ) := by
    exact_mod_cast h1
  have h3 : (n : ℚ) = ((n * 2 ^ k : ℤ) : ℚ) * ((2 : ℚ) ^ k)⁻¹ := by
    push_cast
    field_simp
  rw [h3]
  exact mul_le_mul_of_nonneg_right h2 (inv_nonneg.mpr hpow.le)

/-- The rounded product exceeds a positive `p` by at most one part in `2 ^ 53`, and stays
below 1 where `p` is subnormal. -/
theorem float64Round_le (p : ℚ) (hpos : 0 < p) :
    float64Round p ≤ p * (1 + 1 / 2 ^ 53) ∨ float64Round p < 1 := by
  have hlog := Int.zpow_log_le_self (by norm_num : 1 < 2) hpos
  have hlog2 := Int.lt_zpow_succ_log_self (by norm_num : 1 < 2) p
  simp only [Nat.cast_ofNat] at hlog hlog2
  unfold float64Round
  simp only []
  rw [abs_of_pos hpos]
  have hs : ∀ e : ℤ, (0 : ℚ) < 2 ^ (e - 52) := fun e => by positivity
  have hup : ∀ e : ℤ, (roundHalfEven (p / 2 ^ (e - 52)) : ℚ) * 2 ^ (e - 52)
      ≤ p + 2 ^ (e - 52) / 2 := by
    intro e
    have h1 := roundHalfEven_le (p / 2 ^ (e - 52))
    have h2 := mul_le_mul_of_nonneg_right h1 (hs e).le
    have h3 : (p / 2 ^ (e - 52) + 1 / 2) * 2 ^ (e - 52) = p + 2 ^ (e - 52) / 2 := by
      field_simp
      ring
    rw [h3] at h2
    exact h2
  rcases le_or_lt (-1022) (Int.log 2 p) with hc | hc
  · left
    rw [max_eq_left hc]
    refine (hup _).trans ?_
    have h4 : (2 : ℚ) ^ (Int.log 2 p - 52) = 2 ^ Int.log 2 p / 2 ^ 52 := by
      rw [zpow_sub₀ (by norm_num)]
      norm_num
    rw [h4]
    have h5 : (2 : ℚ) ^ Int.log 2 p / 2 ^ 52 / 2 ≤ p * (1 / 2 ^ 53) := by
      have : (2 : ℚ) ^ Int.log 2 p / 2 ^ 52 / 2 = 2 ^ Int.log 2 p * (1 / 2 ^ 53) := by
        norm_num
        ring
      rw [this]
      exact mul_le_mul_of_nonneg_right hlog (by positivity)
    linarith
  · right
    rw [max_eq_right hc.le]
    refine lt_of_le_of_lt (hup _) ?_
    have h6 : p < 2 ^ (-1 : ℤ) :=
      lt_of_lt_of_le hlog2 (zpow_le_zpow_right₀ (by norm_num) (by omega))
    have h7 : (2 : ℚ) ^ ((-1022 : ℤ) - 52) ≤ 2 ^ (-1 : ℤ) :=
      zpow_le_zpow_right₀ (by norm_num) (by norm_num)
    have h8 : (2 : ℚ) ^ (-1 : ℤ) = 1 / 2 := by norm_num
    rw [h8] at h6 h7
    linarith

/-- The floor of the rounded product is the floor of the exact product `p`, for
`0 ≤ p < 2 ^ 53`, unless `p` lies within one rounding error below a whole number. -/
theorem floor_float64Round (p : ℚ) (h0 : 0 ≤ p) (h53 : p < 2 ^ 53)
    (hround : p * (1 + 1 / 2 ^ 53) < ⌊p⌋ + 1) : ⌊float64Round p⌋ = ⌊p⌋ := by
  have hn : (0 : ℤ) ≤ ⌊p⌋ := Int.floor_nonneg.mpr h0
  rw [Int.floor_eq_iff]
  refine ⟨le_float64Round p ⌊p⌋ hn (Int.floor_le p) h53, ?_⟩
  rcases eq_or_lt_of_le h0 with hz | hpos
  · rw [← hz, float64Round_zero]
    simp
  · rcases float64Round_le p hpos with h | h
    · exact lt_of_le_of_lt h hround
    · have : (0 : ℚ) ≤ (⌊p⌋ : ℚ) := by exact_mod_cast hn
      linarith

/-! ## Synthesis -/

theorem stringsRepeat_of_nonneg (s : List ℕ) (count : ℤ) (h : 0 ≤ count)
    (hfit : (s.length : ℤ) * count ≤ 2 ^ 63 - 1) :
    stringsRepeat s count = some (List.replicate count.toNat s).flatten := by
  unfold stringsRepeat
  rw [if_neg (by rw [not_or]; exact ⟨not_lt.mpr h, not_lt.mpr hfit⟩)]

/-- The repeat of an encoded string succeeds when `encodedBound` copies of a byte per channel
fit an `int`. -/
theorem stringsRepeat_encoded (this : WavForge) (hch : 0 ≤ this.channels)
    (hfit : encodedBound this.bitsPerSample * this.channels ≤ 2 ^ 63 - 1) (x : ℚ) :
    stringsRepeat (this.EncodeSample x).1 this.channels
      = some (List.replicate this.channels.toNat (this.EncodeSample x).1).flatten :=
  stringsRepeat_of_nonneg _ _ hch
    (le_trans (mul_le_mul_of_nonneg_right (EncodeSample_length_le this x) hch) hfit)

/-- With the default 16 bits and 2 channels the repeat fits. -/
theorem fit_default (this : WavForge) (hc : this.channels = 2) (hb : this.bitsPerSample = 16) :
    encodedBound this.bitsPerSample * this.channels ≤ 2 ^ 63 - 1 := by
  rw [hc, hb]
  decide

/-- One frame on a state that differs from the receiver of the call only in what has been
counted and emitted so far. -/
theorem frame_eq (sin : ℚ → ℚ) (this st : WavForge) (frequency volume seconds : ℚ) (i : ℕ)
    (hch : 0 ≤ this.channels)
    (hfit : encodedBound this.bitsPerSample * this.channels ≤ 2 ^ 63 - 1)
    (h1 : st.channels = this.channels)
    (h2 : st.sampleRate = this.sampleRate) (h3 : st.bitsPerSample = this.bitsPerSample) :
    synthesizeSine.frame sin frequency volume
        ((⌊float64Round (this.sampleRate * seconds)⌋ : ℤ) : ℚ)
        (((⌊float64Round (this.sampleRate * seconds)⌋ : ℤ) : ℚ) * 0.250)
        (((⌊float64Round (this.sampleRate * seconds)⌋ : ℤ) : ℚ) * 0.250)
        ((2 : ℚ) ^ this.bitsPerSample / 2) st i
      = some { st with output := st.output ++ frameBytes sin this frequency volume seconds i,
                       sampleCount := st.sampleCount + 1 } := by
  unfold synthesizeSine.frame frameBytes sampleAt wingRatioAt
  simp only [h1, h2, EncodeSample_congr st this h3, stringsRepeat_encoded this hch hfit,
    Option.map_some']

/-- The state after the first `n` frames of a call. -/
theorem frames_eq (sin : ℚ → ℚ) (this : WavForge) (frequency volume seconds : ℚ)
    (hch : 0 ≤ this.channels)
    (hfit : encodedBound this.bitsPerSample * this.channels ≤ 2 ^ 63 - 1) (n : ℕ) :
    (List.range n).foldlM
        (synthesizeSine.frame sin frequency volume
          ((⌊float64Round (this.sampleRate * seconds)⌋ : ℤ) : ℚ)
          (((⌊float64Round (this.sampleRate * seconds)⌋ : ℤ) : ℚ) * 0.250)
          (((⌊float64Round (this.sampleRate * seconds)⌋ : ℤ) : ℚ) * 0.250)
          ((2 : ℚ) ^ this.bitsPerSample / 2)) this
      = some { this with
          output := this.output
            ++ ((List.range n).map (frameBytes sin this frequency volume seconds)).flatten,
          sampleCount := this.sampleCount + n } := by
  induction n with
  | zero => simp
  | succ n ih =>
    rw [List.range_succ, List.foldlM_append, ih]
    simp only [Option.bind_eq_bind, Option.some_bind, List.foldlM_cons, List.foldlM_nil]
    rw [frame_eq sin this
      { this with
          output := this.output
            ++ ((List.range n).map (frameBytes sin this frequency volume seconds)).flatten,
          sampleCount := this.sampleCount + n }
      frequency volume seconds n hch hfit rfl rfl rfl]
    simp only [Option.some_bind, List.map_append, List.map_cons, List.map_nil,
      List.flatten_append, List.flatten_cons, List.flatten_nil, List.append_nil,
      List.append_assoc, Nat.cast_add, Nat.cast_one, add_assoc]
    rfl

/-- Method `synthesizeSine` in closed form, for a receiver whose channel count is not
negative and small enough for the repeat of a frame to fit: the frames are counted and their
bytes appended, in order. -/
theorem synthesizeSine_eq (sin : ℚ → ℚ) (this : WavForge) (frequency volume seconds : ℚ)
    (hch : 0 ≤ this.channels)
    (hfit : encodedBound this.bitsPerSample * this.channels ≤ 2 ^ 63 - 1) :
    this.synthesizeSine sin frequency volume seconds
      = some { this with
          output := this.output
            ++ ((List.range (frameCount this seconds)).map
                  (frameBytes sin this frequency volume seconds)).flatten,
          sampleCount := this.sampleCount + frameCount this seconds } := by
  unfold WavForge.synthesizeSine frameCount
  simp only [Int.floor_intCast]
  exact frames_eq sin this frequency volume seconds hch hfit _

/-- The first frame of every call has amplitude 0, whatever the sine is. -/
theorem sampleAt_zero (sin : ℚ → ℚ) (this : WavForge) (frequency volume seconds : ℚ)
    (h : 1 ≤ frameCount this seconds) : sampleAt sin this frequency volume seconds 0 = 0 := by
  unfold frameCount at h
  have h1 : (1 : ℤ) ≤ ⌊float64Round (this.sampleRate * seconds)⌋ := by omega
  have h2 : (0 : ℚ) < ((⌊float64Round (this.sampleRate * seconds)⌋ : ℤ) : ℚ) * 0.250 := by
    have : (1 : ℚ) ≤ ((⌊float64Round (this.sampleRate * seconds)⌋ : ℤ) : ℚ) := by
      exact_mod_cast h1
    norm_num
    linarith
  unfold sampleAt wingRatioAt
  simp only [Nat.cast_zero, h2, if_true, zero_div, mul_zero, zero_mul]
/-- The floor of the rounded product, from bounds on the exact product `p` that keep it
clear of the next whole number by a rounding error. -/
theorem floor_product_eq (p : ℚ) (n : ℕ) (h1 : (n : ℚ) ≤ p)
    (h2 : p * (1 + 1 / 2 ^ 53) < n + 1) (h53 : p < 2 ^ 53) : ⌊float64Round p⌋ = (n : ℤ) := by
  have hp0 : (0 : ℚ) ≤ p := le_trans (Nat.cast_nonneg n) h1
  have hle : p ≤ p * (1 + 1 / 2 ^ 53) := by
    have : (0 : ℚ) ≤ p * (1 / 2 ^ 53) := mul_nonneg hp0 (by positivity)
    linarith
  have hfl : ⌊p⌋ = (n : ℤ) := by
    rw [Int.floor_eq_iff]
    exact ⟨by exact_mod_cast h1, by push_cast; linarith⟩
  rw [floor_float64Round p hp0 h53 (by rw [hfl]; exact_mod_cast h2), hfl]

theorem frameCount_eq (this : WavForge) (seconds : ℚ) (n : ℕ)
    (h1 : (n : ℚ) ≤ this.sampleRate * seconds)
    (h2 : this.sampleRate * seconds * (1 + 1 / 2 ^ 53) < n + 1)
    (h53 : this.sampleRate * seconds < 2 ^ 53) :
    frameCount this seconds = n := by
  unfold frameCount
  rw [floor_product_eq _ n h1 h2 h53, Int.toNat_ofNat]

/-- The bytes of the first frame of a call at the default configuration: one zero byte for
each of the two channels. -/
theorem frameBytes_zero_default (sin : ℚ → ℚ) (frequency volume seconds : ℚ)
    (h : 1 ≤ frameCount WavForge.zero.InitConfig seconds) :
    frameBytes sin WavForge.zero.InitConfig frequency volume seconds 0 = [0, 0] := by
  unfold frameBytes
  rw [sampleAt_zero sin _ frequency volume seconds h, EncodeSample_default_zero _ rfl]
  rfl

/-- C2: the alignment invariant fails after the very first call. On the `InitConfig` state a
call of `synthesizeSine` lasting one frame, with any sine, frequency and volume, counts one
frame and emits two bytes, the single zero byte of the amplitude 0 once per channel, where
the invariant asks for `1 * 2 * (16 / 8) = 4` bytes. -/
theorem synthesizeSine_one_frame_misaligned (sin : ℚ → ℚ) (frequency volume : ℚ) :
    WavForge.zero.InitConfig.synthesizeSine sin frequency volume (3 / 100000)
        = some { channels := 2, sampleRate := 44100, bitsPerSample := 16, sampleCount := 1,
                 output := [0, 0] }
      ∧ ¬ aligned { channels := 2, sampleRate := 44100, bitsPerSample := 16, sampleCount := 1,
                    output := [0, 0] } := by
  have hn : frameCount WavForge.zero.InitConfig (3 / 100000) = 1 :=
    frameCount_eq _ _ 1 (by norm_num [WavForge.InitConfig]) (by norm_num [WavForge.InitConfig])
      (by norm_num [WavForge.InitConfig])
  constructor
  · rw [synthesizeSine_eq sin _ frequency volume _ (by decide) (fit_default _ rfl rfl), hn]
    simp only [List.range_succ, List.range_zero, List.nil_append, List.map_cons, List.map_nil,
      List.flatten_cons, List.flatten_nil, List.append_nil]
    rw [frameBytes_zero_default sin frequency volume _ (by rw [hn])]
    rfl
  · unfold aligned
    norm_num

/-- The amplitude of the second of two frames at the default configuration. -/
theorem sampleAt_one_of_two (sin : ℚ → ℚ) (frequency volume : ℚ) :
    sampleAt sin WavForge.zero.InitConfig frequency volume (5 / 100000) 1
      = volume * 32768 * sin (2 * Pi * frequency / 44100) := by
  have hfl : ⌊float64Round (WavForge.zero.InitConfig.sampleRate * (5 / 100000 : ℚ))⌋ = 2 :=
    floor_product_eq _ 2 (by norm_num [WavForge.InitConfig])
      (by norm_num [WavForge.InitConfig]) (by norm_num [WavForge.InitConfig])
  unfold sampleAt wingRatioAt
  rw [hfl]
  norm_num [WavForge.InitConfig]

/-- C7: an overflow frame is counted but nothing is emitted for it. At the default
configuration, with volume 3 and a sine above 2/3 at a quarter period, the second of the two
frames of the call overflows: `EncodeSample` returns the error and the empty string, the
frame appends no byte, and the call ends with two frames counted and only the two bytes of
the first frame in `output`. -/
theorem synthesizeSine_overflow_frame (sin : ℚ → ℚ) (hsin : 2 / 3 < sin (Pi / 2)) :
    (WavForge.zero.InitConfig.EncodeSample
        (sampleAt sin WavForge.zero.InitConfig 11025 3 (5 / 100000) 1)).2 ≠ none
      ∧ frameBytes sin WavForge.zero.InitConfig 11025 3 (5 / 100000) 1 = []
      ∧ WavForge.zero.InitConfig.synthesizeSine sin 11025 3 (5 / 100000)
          = some { channels := 2, sampleRate := 44100, bitsPerSample := 16, sampleCount := 2,
                   output := [0, 0] } := by
  have hn : frameCount WavForge.zero.InitConfig (5 / 100000) = 2 :=
    frameCount_eq _ _ 2 (by norm_num [WavForge.InitConfig]) (by norm_num [WavForge.InitConfig])
      (by norm_num [WavForge.InitConfig])
  have harg : (2 : ℚ) * Pi * 11025 / 44100 = Pi / 2 := by ring
  have hs : sampleAt sin WavForge.zero.InitConfig 11025 3 (5 / 100000) 1
      = 98304 * sin (Pi / 2) := by
    rw [sampleAt_one_of_two, harg]; ring
  have hbits : WavForge.zero.InitConfig.bitsPerSample = 16 := rfl
  have hover : (2 : ℚ) ^ WavForge.zero.InitConfig.bitsPerSample < 98304 * sin (Pi / 2) := by
    rw [hbits]; norm_num; linarith
  have henc : WavForge.zero.InitConfig.EncodeSample (98304 * sin (Pi / 2))
      = ([], some (error.Overflow (98304 * sin (Pi / 2)) 16)) := by
    have hpos : ¬ (98304 * sin (Pi / 2) < 0) := by linarith
    rw [EncodeSample_eq, if_neg hpos, if_pos hover]
    rfl
  have hfb : frameBytes sin WavForge.zero.InitConfig 11025 3 (5 / 100000) 1 = [] := by
    unfold frameBytes
    rw [hs, henc]
    simp
  refine ⟨?_, hfb, ?_⟩
  · rw [hs, henc]; simp
  · rw [synthesizeSine_eq sin _ 11025 3 _ (by decide) (fit_default _ rfl rfl), hn]
    simp only [List.range_succ, List.range_zero, List.nil_append, List.map_cons, List.map_nil,
      List.flatten_cons, List.flatten_nil, List.append_nil, List.cons_append]
    rw [frameBytes_zero_default sin 11025 3 _ (by rw [hn]; norm_num), hfb]
    rfl

theorem sineApprox_quarter : sineApprox (Pi / 2) = 1 := by
  have h : Int.fract (Pi / 2 / (2 * Pi)) = 1 / 4 := by
    have : Pi / 2 / (2 * Pi) = 1 / 4 := by norm_num [Pi]
    rw [this, Int.fract_eq_iff]
    exact ⟨by norm_num, by norm_num, 0, by norm_num⟩
  unfold sineApprox
  rw [h]
  norm_num

theorem synthesizeSine_overflow_frame_witness :
    (WavForge.zero.InitConfig.EncodeSample
        (sampleAt sineApprox WavForge.zero.InitConfig 11025 3 (5 / 100000) 1)).2 ≠ none
      ∧ frameBytes sineApprox WavForge.zero.InitConfig 11025 3 (5 / 100000) 1 = []
      ∧ WavForge.zero.InitConfig.synthesizeSine sineApprox 11025 3 (5 / 100000)
          = some { channels := 2, sampleRate := 44100, bitsPerSample := 16, sampleCount := 2,
                   output := [0, 0] } :=
  synthesizeSine_overflow_frame sineApprox (by rw [sineApprox_quarter]; norm_num)

/-! ## Lengths of encoded frames at 16 bits -/

theorem runeString_length_pos (r : ℤ) : 1 ≤ (runeString r).length := by
  unfold runeString
  simp only []
  split_ifs <;> simp

theorem flatten_map_runeString_length (ds : List ℕ) :
    ds.length ≤ ((ds.map fun (d : ℕ) => runeString (d : ℤ)).flatten).length := by
  induction ds with
  | nil => simp
  | cons d ds ih =>
    have := runeString_length_pos (d : ℤ)
    simp only [List.map_cons, List.flatten_cons, List.length_append, List.length_cons]
    omega

theorem padCount_sixteen (len : ℕ) :
    ((-((-(16 : ℤ)) >>> 3) - (len : ℤ) + 1) / 2).toNat = (3 - len) / 2 := by
  have : (-(16 : ℤ)) >>> 3 = -2 := by decide
  rw [this]
  omega

theorem encodedString_length (v : ℚ) (ds : List ℕ)
    (h : (if 0 < v then sampleDigits ⌊v⌋.toNat else []) = ds) :
    (encodedString 16 v).length
      = ((ds.map fun (d : ℕ) => runeString (d : ℤ)).flatten).length + (3 - ds.length) / 2 := by
  unfold encodedString
  simp only [h, padCount_sixteen, List.flatten_append, List.length_append]
  congr 1
  generalize (3 - ds.length) / 2 = k
  induction k with
  | zero => simp
  | succ k ih => simp [List.replicate_succ, ih]

/-- Every encoded string has at least one byte. -/
theorem encodedString_length_pos (v : ℚ) : 1 ≤ (encodedString 16 v).length := by
  rw [encodedString_length v _ rfl]
  have := flatten_map_runeString_length (if 0 < v then sampleDigits ⌊v⌋.toNat else [])
  omega

/-- A positive value is encoded in at least two bytes. -/
theorem encodedString_length_two (v : ℚ) (h : 0 < v) : 2 ≤ (encodedString 16 v).length := by
  rw [encodedString_length v (sampleDigits ⌊v⌋.toNat) (if_pos h)]
  have h1 := flatten_map_runeString_length (sampleDigits ⌊v⌋.toNat)
  have h2 := sampleDigits_length_pos ⌊v⌋.toNat
  omega

/-- A value with the top bit set is encoded in at least three bytes: its high digit is at
least 128. -/
theorem encodedString_length_three (v : ℚ) (h1 : 32768 ≤ v) (h2 : v < 65536) :
    3 ≤ (encodedString 16 v).length := by
  have hpos : 0 < v := by linarith
  have hfl1 : (32768 : ℤ) ≤ ⌊v⌋ := Int.le_floor.mpr (by exact_mod_cast h1)
  have hfl2 : ⌊v⌋ < (65536 : ℤ) := Int.floor_lt.mpr (by exact_mod_cast h2)
  obtain ⟨n, hn⟩ := Int.eq_ofNat_of_zero_le (by omega : 0 ≤ ⌊v⌋)
  have hn1 : 32768 ≤ n := by omega
  have hn2 : n < 65536 := by omega
  have hds : sampleDigits ⌊v⌋.toNat = [n % 256, n / 256] := by
    rw [hn, Int.toNat_ofNat]
    exact sampleDigits_of_lt_two n (by omega) hn2
  rw [encodedString_length v [n % 256, n / 256] (by rw [if_pos hpos, hds])]
  have e1 := runeString_length_pos ((n % 256 : ℕ) : ℤ)
  have e2 : runeString ((n / 256 : ℕ) : ℤ) = [0xC0 + n / 256 / 64, 0x80 + n / 256 % 64] :=
    runeString_of_ge_128 _ (by omega) (by omega)
  simp only [List.map_cons, List.map_nil, List.flatten_cons, List.flatten_nil,
    List.length_append, e2, List.length_cons, List.length_nil]
  omega

/-- The encoded length of a sample at 16 bits: at least 1 byte for an amplitude in
`[-32768, 65536)`, at least 2 for a positive one, at least 3 for a negative one. -/
theorem EncodeSample_length_bounds (this : WavForge) (h16 : this.bitsPerSample = 16) (s : ℚ)
    (hlo : -32768 ≤ s) (hhi : s < 65536) :
    1 ≤ (this.EncodeSample s).1.length
      ∧ (0 < s → 2 ≤ (this.EncodeSample s).1.length)
      ∧ (s < 0 → 3 ≤ (this.EncodeSample s).1.length) := by
  have hm : (2 : ℚ) ^ this.bitsPerSample = 65536 := by rw [h16]; norm_num
  rw [EncodeSample_eq, hm, h16]
  by_cases hneg : s < 0
  · have hw1 : ¬ (65536 : ℚ) < s + 65536 := by linarith
    have hw2 : ¬ s + 65536 = 65536 := by intro h; linarith
    rw [if_pos hneg, if_neg hw1, if_neg hw2]
    have h3 := encodedString_length_three (s + 65536) (by linarith) (by linarith)
    simp only []
    exact ⟨by omega, fun _ => by omega, fun _ => h3⟩
  · have hw1 : ¬ (65536 : ℚ) < s := by linarith
    have hw2 : ¬ s = 65536 := by intro h; linarith
    rw [if_neg hneg, if_neg hw1, if_neg hw2]
    exact ⟨encodedString_length_pos s, fun h => encodedString_length_two s h,
      fun h => absurd h hneg⟩

/-! ## The envelope -/

/-- Inside a call the envelope lies in `[0, 1]`, and it is positive after the first frame. -/
theorem wingRatioAt_bounds (T i : ℕ) (h : i < T) :
    0 ≤ wingRatioAt (T : ℚ) i ∧ wingRatioAt (T : ℚ) i ≤ 1
      ∧ (0 < i → 0 < wingRatioAt (T : ℚ) i) := by
  have hT : (0 : ℚ) < (T : ℚ) * 0.250 := by
    have : (0 : ℚ) < T := by exact_mod_cast (by omega : 0 < T)
    norm_num; linarith
  have hi : (0 : ℚ) ≤ i := Nat.cast_nonneg i
  have hiT : (i : ℚ) < T := by exact_mod_cast h
  unfold wingRatioAt
  simp only []
  split_ifs with h1 h2
  · refine ⟨div_nonneg hi hT.le, (div_le_one hT).mpr h1.le, fun h0 => div_pos ?_ hT⟩
    exact_mod_cast h0
  · have : (0 : ℚ) < (T : ℚ) - i := by linarith
    exact ⟨(div_pos this hT).le, (div_le_one hT).mpr h2, fun _ => div_pos this hT⟩
  · norm_num

/-! ## The phase of a frame -/

theorem fract_div_44100 (m : ℕ) :
    Int.fract ((m : ℚ) / 44100) = ((m % 44100 : ℕ) : ℚ) / 44100 := by
  rw [Int.fract_eq_iff]
  refine ⟨by positivity, ?_, (m / 44100 : ℕ), ?_⟩
  · rw [div_lt_one (by norm_num)]
    exact_mod_cast Nat.mod_lt m (by norm_num)
  · have h : (m : ℚ) = ((m % 44100 : ℕ) : ℚ) + 44100 * ((m / 44100 : ℕ) : ℚ) := by
      exact_mod_cast (Nat.mod_add_div m 44100).symm
    rw [Int.cast_natCast]
    generalize ((m % 44100 : ℕ) : ℚ) = a at h ⊢
    generalize ((m / 44100 : ℕ) : ℚ) = b at h ⊢
    rw [h]
    field_simp

theorem Pi_pos : 0 < Pi := by norm_num [Pi]

theorem Pi_lt : Pi < 3142 / 1000 := by norm_num [Pi]

/-- The argument of the sine at frame `i` of a tone of `f` Hz at 44100 Hz: its phase is
`(i * f mod 44100) / 44100`. -/
theorem phase_eq (f i : ℕ) :
    Int.fract (2 * Pi * (i : ℚ) * (f : ℚ) / 44100 / (2 * Pi))
      = (((i * f) % 44100 : ℕ) : ℚ) / 44100 := by
  have : 2 * Pi * (i : ℚ) * (f : ℚ) / 44100 / (2 * Pi) = ((i * f : ℕ) : ℚ) / 44100 := by
    have := Pi_pos
    push_cast
    field_simp
    ring
  rw [this, fract_div_44100]

/-! ## A tone at the default configuration, under `SineLike` -/

theorem frameCount_floor (this : WavForge) (seconds : ℚ) (h : 1 ≤ frameCount this seconds) :
    ((⌊float64Round (this.sampleRate * seconds)⌋ : ℤ) : ℚ)
      = ((frameCount this seconds : ℕ) : ℚ) := by
  unfold frameCount at h ⊢
  generalize ⌊float64Round (this.sampleRate * seconds)⌋ = t at h ⊢
  have : t = ((t.toNat : ℕ) : ℤ) := by omega
  exact_mod_cast this

/-- The amplitude of a frame of a tone of volume 0.6 at 16 bits is `19660.8` times the
envelope times the sine. -/
theorem sampleAt_default (sin : ℚ → ℚ) (this : WavForge) (hr : this.sampleRate = 44100)
    (hb : this.bitsPerSample = 16) (f : ℕ) (seconds : ℚ) (i : ℕ)
    (hi : i < frameCount this seconds) :
    sampleAt sin this (f : ℚ) 0.6 seconds i
      = 98304 / 5 * wingRatioAt ((frameCount this seconds : ℕ) : ℚ) i
          * sin (2 * Pi * (i : ℚ) * (f : ℚ) / 44100) := by
  unfold sampleAt
  rw [frameCount_floor this seconds (by omega), hr, hb]
  norm_num

/-- Frame `i` of a tone of `f` Hz and volume 0.6 at the default configuration appends at
least `2 * frameLower f i` bytes. -/
theorem frameBytes_length_ge (sin : ℚ → ℚ) (hsin : SineLike sin) (this : WavForge)
    (hc : this.channels = 2) (hr : this.sampleRate = 44100) (hb : this.bitsPerSample = 16)
    (f : ℕ) (hf : f ≤ 20000) (seconds : ℚ) (i : ℕ) (hi : i < frameCount this seconds)
    (hN : frameCount this seconds ≤ 2691) :
    2 * frameLower f i ≤ (frameBytes sin this (f : ℚ) 0.6 seconds i).length := by
  obtain ⟨hrange, hsign⟩ := hsin
  have hlen : (frameBytes sin this (f : ℚ) 0.6 seconds i).length
      = 2 * (this.EncodeSample (sampleAt sin this (f : ℚ) 0.6 seconds i)).1.length := by
    unfold frameBytes
    rw [hc]
    simp [List.replicate_succ]
    omega
  rw [hlen, sampleAt_default sin this hr hb f seconds i hi]
  obtain ⟨hw0, hw1, hwpos⟩ := wingRatioAt_bounds (frameCount this seconds) i hi
  generalize wingRatioAt ((frameCount this seconds : ℕ) : ℚ) i = w at hw0 hw1 hwpos
  have hx0 : (0 : ℚ) ≤ 2 * Pi * (i : ℚ) * (f : ℚ) / 44100 := by
    have := Pi_pos
    positivity
  have hx1 : 2 * Pi * (i : ℚ) * (f : ℚ) / 44100 ≤ 10000 := by
    have hi' : (i : ℚ) ≤ 2691 := by exact_mod_cast (by omega : i ≤ 2691)
    have hf' : (f : ℚ) ≤ 20000 := by exact_mod_cast hf
    have hif : (i : ℚ) * (f : ℚ) ≤ 2691 * 20000 :=
      mul_le_mul hi' hf' (Nat.cast_nonneg f) (by norm_num)
    have hif0 : (0 : ℚ) ≤ (i : ℚ) * (f : ℚ) := by positivity
    have hPi := Pi_lt
    have hPi0 := Pi_pos
    rw [div_le_iff₀ (by norm_num)]
    nlinarith
  obtain ⟨hpos, hneg⟩ := hsign _ hx0 hx1
  rw [phase_eq f i] at hpos hneg
  obtain ⟨hy0, hy1⟩ := hrange (2 * Pi * (i : ℚ) * (f : ℚ) / 44100)
  generalize sin (2 * Pi * (i : ℚ) * (f : ℚ) / 44100) = y at hpos hneg hy0 hy1
  have hs_lo : -32768 ≤ 98304 / 5 * w * y := by nlinarith
  have hs_hi : 98304 / 5 * w * y < 65536 := by nlinarith
  obtain ⟨b1, b2, b3⟩ := EncodeSample_length_bounds this hb _ hs_lo hs_hi
  unfold frameLower
  split_ifs with h0 h2 h3
  · omega
  · have hw : 0 < w := hwpos (Nat.pos_of_ne_zero h0)
    have hr1 : (45 : ℚ) ≤ (((i * f) % 44100 : ℕ) : ℚ) := by exact_mod_cast h2.1
    have hr2 : (((i * f) % 44100 : ℕ) : ℚ) ≤ 22005 := by exact_mod_cast h2.2
    have hy : 0 < y := hpos (by rw [le_div_iff₀ (by norm_num)]; linarith)
      (by rw [div_le_iff₀ (by norm_num)]; linarith)
    have := b2 (by positivity)
    omega
  · have hw : 0 < w := hwpos (Nat.pos_of_ne_zero h0)
    have hr1 : (22095 : ℚ) ≤ (((i * f) % 44100 : ℕ) : ℚ) := by exact_mod_cast h3.1
    have hr2 : (((i * f) % 44100 : ℕ) : ℚ) ≤ 44055 := by exact_mod_cast h3.2
    have hy : y < 0 := hneg (by rw [le_div_iff₀ (by norm_num)]; linarith)
      (by rw [div_le_iff₀ (by norm_num)]; linarith)
    have := b3 (by nlinarith)
    omega
  · omega

theorem length_flatten_map_range (F : ℕ → List ℕ) (n : ℕ) :
    (((List.range n).map F).flatten).length = ∑ i ∈ Finset.range n, (F i).length := by
  induction n with
  | zero => simp
  | succ n ih =>
    rw [List.range_succ, List.map_append, List.flatten_append, List.length_append, ih,
      Finset.sum_range_succ]
    simp

/-- A tone of `f` Hz and volume 0.6 on a state with the default configuration: the call
returns, the frames are counted, the earlier output is kept in front, and at least
`2 * frameLower f i` bytes are appended for every frame `i`. -/
theorem synthesizeSine_tone (sin : ℚ → ℚ) (hsin : SineLike sin) (this : WavForge)
    (hc : this.channels = 2) (hr : this.sampleRate = 44100) (hb : this.bitsPerSample = 16)
    (f : ℕ) (hf : f ≤ 20000) (seconds : ℚ) (hN : frameCount this seconds ≤ 2691) :
    ∃ st body, this.synthesizeSine sin (f : ℚ) 0.6 seconds = some st
      ∧ st.channels = 2 ∧ st.sampleRate = 44100 ∧ st.bitsPerSample = 16
      ∧ st.sampleCount = this.sampleCount + frameCount this seconds
      ∧ st.output = this.output ++ body
      ∧ 2 * ∑ i ∈ Finset.range (frameCount this seconds), frameLower f i ≤ body.length := by
  refine ⟨_, _, synthesizeSine_eq sin this (f : ℚ) 0.6 seconds (by rw [hc]; norm_num)
      (fit_default this hc hb),
    hc, hr, hb, rfl, rfl, ?_⟩
  rw [length_flatten_map_range, Finset.mul_sum]
  apply Finset.sum_le_sum
  intro i hi
  exact frameBytes_length_ge sin hsin this hc hr hb f hf seconds i (Finset.mem_range.mp hi) hN

theorem sumBlock_eq (g : ℕ → ℕ) (k s : ℕ) :
    sumBlock g k s = ∑ i ∈ Finset.range (2 ^ k), g (s + i) := by
  induction k generalizing s with
  | zero => simp [sumBlock]
  | succ k ih =>
    rw [sumBlock, ih, ih, pow_succ, mul_two, Finset.sum_range_add]
    simp only [add_assoc]

theorem sum_range_2691 (g : ℕ → ℕ) :
    ∑ i ∈ Finset.range 2691, g i
      = sumBlock g 11 0 + (sumBlock g 9 2048 + (sumBlock g 7 2560
          + (sumBlock g 1 2688 + sumBlock g 0 2690))) := by
  simp only [sumBlock_eq]
  rw [show (2691 : ℕ) = 2 ^ 11 + (2 ^ 9 + (2 ^ 7 + (2 ^ 1 + 2 ^ 0))) by norm_num,
    Finset.sum_range_add, Finset.sum_range_add, Finset.sum_range_add, Finset.sum_range_add]
  simp only [zero_add, ← add_assoc]
  norm_num

theorem sum_range_1153 (g : ℕ → ℕ) :
    ∑ i ∈ Finset.range 1153, g i
      = sumBlock g 10 0 + (sumBlock g 7 1024 + sumBlock g 0 1152) := by
  simp only [sumBlock_eq]
  rw [show (1153 : ℕ) = 2 ^ 10 + (2 ^ 7 + 2 ^ 0) by norm_num,
    Finset.sum_range_add, Finset.sum_range_add]
  simp only [zero_add, ← add_assoc]
  norm_num

/-- The lower bounds of the 2691 frames of the carrier tone add up to 6716. -/
theorem frameLower_carrier : ∑ i ∈ Finset.range 2691, frameLower 17800 i = 6716 := by
  rw [sum_range_2691]
  decide

/-- The lower bounds of the 1153 frames of a data tone add up to more than two a frame. -/
theorem frameLower_data :
    ∀ p < 32, 2 * 1153 ≤ ∑ i ∈ Finset.range 1153, frameLower (18000 + 64 * p) i := by
  simp only [sum_range_1153]
  decide!

/-! ## The stand-in sine -/

theorem bhaskara_bounds (y : ℚ) (h0 : 0 ≤ y) (h1 : y ≤ 1) :
    0 ≤ 16 * y * (1 - y) / (5 - 4 * y * (1 - y))
      ∧ 16 * y * (1 - y) / (5 - 4 * y * (1 - y)) ≤ 1
      ∧ (0 < y → y < 1 → 0 < 16 * y * (1 - y) / (5 - 4 * y * (1 - y))) := by
  have hq0 : 0 ≤ y * (1 - y) := mul_nonneg h0 (by linarith)
  have hq1 : y * (1 - y) ≤ 1 / 4 := by nlinarith [sq_nonneg (2 * y - 1)]
  have hd : 0 < 5 - 4 * y * (1 - y) := by nlinarith
  refine ⟨div_nonneg (by nlinarith) hd.le, (div_le_one hd).mpr (by nlinarith), fun hy0 hy1 => ?_⟩
  have : 0 < y * (1 - y) := mul_pos hy0 (by linarith)
  exact div_pos (by nlinarith) hd

/-- The stand-in sine meets the assumptions made of the library sine. -/
theorem sineApprox_sineLike : SineLike sineApprox := by
  have key : ∀ x : ℚ, (-1 ≤ sineApprox x ∧ sineApprox x ≤ 1)
      ∧ (0 < Int.fract (x / (2 * Pi)) → Int.fract (x / (2 * Pi)) < 1 / 2 → 0 < sineApprox x)
      ∧ (1 / 2 < Int.fract (x / (2 * Pi)) → sineApprox x < 0) := by
    intro x
    have ht0 := Int.fract_nonneg (x / (2 * Pi))
    have ht1 := Int.fract_lt_one (x / (2 * Pi))
    unfold sineApprox
    simp only []
    generalize Int.fract (x / (2 * Pi)) = t at ht0 ht1
    by_cases h : t ≤ 1 / 2
    · rw [if_pos h]
      obtain ⟨b0, b1, b2⟩ := bhaskara_bounds (2 * t) (by linarith) (by linarith)
      refine ⟨⟨by linarith, b1⟩, fun h0 h1 => b2 (by linarith) (by linarith), fun h1 => ?_⟩
      linarith
    · rw [if_neg h]
      obtain ⟨b0, b1, b2⟩ := bhaskara_bounds (2 * t - 1) (by linarith) (by linarith)
      have e : (1 : ℚ) - (2 * t - 1) = 2 - 2 * t := by ring
      rw [e] at b0 b1 b2
      have hneg := b2 (by linarith) (by linarith)
      refine ⟨⟨by linarith, by linarith⟩, fun h0 h1 => ?_, fun _ => by linarith⟩
      linarith
  refine ⟨fun x => (key x).1, fun x _ _ => ⟨fun h1 h2 => ?_, fun h1 h2 => ?_⟩⟩
  · exact (key x).2.1 (by linarith) (by linarith)
  · exact (key x).2.2 (by linarith)

/-! ## The tone pair of one character -/

theorem frameCount_carrier (this : WavForge) (hr : this.sampleRate = 44100) :
    frameCount this (0.0872 / 2.0 * 1.4) = 2691 :=
  frameCount_eq _ _ 2691 (by rw [hr]; norm_num) (by rw [hr]; norm_num)
    (by rw [hr]; norm_num)

theorem frameCount_data (this : WavForge) (hr : this.sampleRate = 44100) :
    frameCount this (0.0872 / 2.0 * 0.6) = 1153 :=
  frameCount_eq _ _ 1153 (by rw [hr]; norm_num) (by rw [hr]; norm_num)
    (by rw [hr]; norm_num)

/-- The carrier tone followed by the data tone of position `p`, on a state with the default
configuration: 3844 frames are counted and at least `2 * 6716 + 4 * 1153 = 18044` bytes are
appended, more than the `4 * 3844 = 15376` of four bytes a frame. -/
theorem tone_pair (sin : ℚ → ℚ) (hsin : SineLike sin) (this : WavForge)
    (hc : this.channels = 2) (hr : this.sampleRate = 44100) (hb : this.bitsPerSample = 16)
    (p : ℕ) (hp : p < 32) :
    ∃ st1 st2 carrier tone,
      this.synthesizeSine sin 17800 0.6 (0.0872 / 2.0 * 1.4) = some st1
        ∧ st1.synthesizeSine sin ((18000 + 64 * p : ℕ) : ℚ) 0.6 (0.0872 / 2.0 * 0.6) = some st2
        ∧ st1.sampleCount = this.sampleCount + 2691
        ∧ st2.sampleCount = this.sampleCount + 3844
        ∧ st1.output = this.output ++ carrier
        ∧ st2.output = this.output ++ carrier ++ tone
        ∧ st2.channels = 2 ∧ st2.sampleRate = 44100 ∧ st2.bitsPerSample = 16
        ∧ 18044 ≤ carrier.length + tone.length := by
  obtain ⟨st1, carrier, e1, c1, r1, b1, n1, o1, l1⟩ :=
    synthesizeSine_tone sin hsin this hc hr hb 17800 (by norm_num) (0.0872 / 2.0 * 1.4)
      (by rw [frameCount_carrier this hr])
  obtain ⟨st2, tone, e2, c2, r2, b2, n2, o2, l2⟩ :=
    synthesizeSine_tone sin hsin st1 c1 r1 b1 (18000 + 64 * p) (by omega) (0.0872 / 2.0 * 0.6)
      (by rw [frameCount_data st1 r1]; norm_num)
  rw [frameCount_carrier this hr] at n1 l1
  rw [frameCount_data st1 r1] at n2 l2
  rw [frameLower_carrier] at l1
  have l3 := frameLower_data p hp
  refine ⟨st1, st2, carrier, tone, ?_, e2, n1, ?_, o1, ?_, c2, r2, b2, by omega⟩
  · rw [← e1]; norm_num
  · rw [n2, n1]; push_cast; ring
  · rw [o2, o1]

/-- C10: the tone pair of the code "0" at the default configuration. The two calls return and
count `2691 + 1153 = 3844` frames, and the bytes of the carrier tone come first in `output`,
those of the data tone after them; but under `SineLike` the body is longer than the
`3844 * 2 * 2 = 15376` bytes of the claim, at least 18044 bytes: every frame of negative
amplitude takes more than two bytes a channel. -/
theorem tone_pair_zero (sin : ℚ → ℚ) (hsin : SineLike sin) :
    ∃ st1 st2 carrier tone,
      WavForge.zero.InitConfig.synthesizeSine sin 17800 0.6 (0.0872 / 2 * 1.4) = some st1
        ∧ st1.synthesizeSine sin 18000 0.6 (0.0872 / 2 * 0.6) = some st2
        ∧ st1.sampleCount = 2691 ∧ st2.sampleCount = 3844
        ∧ st1.output = carrier ∧ st2.output = carrier ++ tone
        ∧ 15376 < st2.output.length ∧ 18044 ≤ st2.output.length := by
  obtain ⟨st1, st2, carrier, tone, e1, e2, n1, n2, o1, o2, -, -, -, l⟩ :=
    tone_pair sin hsin WavForge.zero.InitConfig rfl rfl rfl 0 (by norm_num)
  have hlen : st2.output.length = carrier.length + tone.length := by
    rw [o2]; simp [WavForge.InitConfig]
  refine ⟨st1, st2, carrier, tone, ?_, ?_, ?_, ?_, ?_, ?_, by omega, by omega⟩
  · rw [← e1]; norm_num
  · rw [← e2]; norm_num
  · rw [n1]; rfl
  · rw [n2]; rfl
  · rw [o1]; rfl
  · rw [o2]; rfl

theorem tone_pair_zero_witness :
    ∃ st1 st2 carrier tone,
      WavForge.zero.InitConfig.synthesizeSine sineApprox 17800 0.6 (0.0872 / 2 * 1.4) = some st1
        ∧ st1.synthesizeSine sineApprox 18000 0.6 (0.0872 / 2 * 0.6) = some st2
        ∧ st1.sampleCount = 2691 ∧ st2.sampleCount = 3844
        ∧ st1.output = carrier ∧ st2.output = carrier ++ tone
        ∧ 15376 < st2.output.length ∧ 18044 ≤ st2.output.length :=
  tone_pair_zero sineApprox sineApprox_sineLike

/-! ## `CreateWave` -/

/-- The frequency table of `CreateWave` at a position below 32. -/
theorem frequency_get (p : ℕ) (hp : p < 32) :
    ((List.range 32).map fun (i : ℕ) => ((((18000 : ℤ) + (i : ℤ) * 64 : ℤ)) : ℚ)).get? p
      = some ((18000 + 64 * p : ℕ) : ℚ) := by
  rw [List.get?_eq_getElem?, List.getElem?_map, List.getElem?_range hp]
  simp only [Option.map_some', Option.some.injEq]
  push_cast
  ring

/-- One round of the loop of `CreateWave`, for a character of the alphabet. -/
theorem createWave_round (sin : ℚ → ℚ) (hsin : SineLike sin) (this : WavForge)
    (hc : this.channels = 2) (hr : this.sampleRate = 44100) (hb : this.bitsPerSample = 16)
    (char : Char) (hchar : char ∈ "0123456789abcdefghijklmnopqrstuv".toList) :
    ∃ st body,
      ((this.synthesizeSine sin 17800 0.6 (0.0872 / 2.0 * 1.4)).bind fun this =>
          (if stringsIndex "0123456789abcdefghijklmnopqrstuv".toList char < 0 then none
            else ((List.range 32).map fun (i : ℕ) =>
              ((((18000 : ℤ) + (i : ℤ) * 64 : ℤ)) : ℚ)).get?
                (stringsIndex "0123456789abcdefghijklmnopqrstuv".toList char).toNat).bind
            fun f => this.synthesizeSine sin f 0.6 (0.0872 / 2.0 * 0.6)) = some st
        ∧ st.channels = 2 ∧ st.sampleRate = 44100 ∧ st.bitsPerSample = 16
        ∧ st.sampleCount = this.sampleCount + 3844
        ∧ st.output = this.output ++ body
        ∧ 18044 ≤ body.length := by
  have hidx : stringsIndex "0123456789abcdefghijklmnopqrstuv".toList char
      = (("0123456789abcdefghijklmnopqrstuv".toList.indexOf char : ℕ) : ℤ) := by
    unfold stringsIndex
    rw [if_pos hchar]
  have hlt : "0123456789abcdefghijklmnopqrstuv".toList.indexOf char < 32 := by
    have := List.indexOf_lt_length.mpr hchar
    simpa using this
  obtain ⟨st1, st2, carrier, tone, e1, e2, -, n2, -, o2, c2, r2, b2, l⟩ :=
    tone_pair sin hsin this hc hr hb _ hlt
  refine ⟨st2, carrier ++ tone, ?_, c2, r2, b2, n2, by rw [o2, List.append_assoc], ?_⟩
  · rw [e1, hidx]
    simp only [Option.some_bind, Int.toNat_ofNat]
    rw [if_neg (by omega), frequency_get _ hlt]
    exact e2
  · rw [List.length_append]; exact l

/-- The loop of `CreateWave` over a code of characters of the alphabet, on a state with the
default configuration: it returns, counts 3844 frames a character and appends at least 18044
bytes a character. -/
theorem createWave_loop (sin : ℚ → ℚ) (hsin : SineLike sin) (testCode : List Char)
    (hcode : ∀ char ∈ testCode, char ∈ "0123456789abcdefghijklmnopqrstuv".toList) :
    ∀ this : WavForge, this.channels = 2 → this.sampleRate = 44100 → this.bitsPerSample = 16 →
      ∃ st body, CreateWave.loop sin testCode this = some st
        ∧ st.channels = 2 ∧ st.sampleRate = 44100 ∧ st.bitsPerSample = 16
        ∧ st.sampleCount = this.sampleCount + 3844 * testCode.length
        ∧ st.output = this.output ++ body
        ∧ 18044 * testCode.length ≤ body.length := by
  induction testCode with
  | nil =>
    intro this hc hr hb
    exact ⟨this, [], rfl, hc, hr, hb, by simp, by simp, by simp⟩
  | cons char rest ih =>
    intro this hc hr hb
    obtain ⟨st1, body1, e1, c1, r1, b1, n1, o1, l1⟩ :=
      createWave_round sin hsin this hc hr hb char (hcode char (List.mem_cons_self _ _))
    obtain ⟨st2, body2, e2, c2, r2, b2, n2, o2, l2⟩ :=
      ih (fun c hcmem => hcode c (List.mem_cons_of_mem _ hcmem)) st1 c1 r1 b1
    refine ⟨st2, body1 ++ body2, ?_, c2, r2, b2, ?_, ?_, ?_⟩
    · unfold CreateWave.loop at e2 ⊢
      simp only [List.foldlM_cons]
      erw [e1]
      exact e2
    · rw [n2, n1, List.length_cons]; push_cast; ring
    · rw [o2, o1, List.append_assoc]
    · rw [List.length_append, List.length_cons]; omega

/-- The two size fields of the header of a state with the default configuration and `n`
frames counted: Subchunk2Size is `4 * n` and ChunkSize is `4 * n + 36`. -/
theorem header_sizes_default (st : WavForge) (hc : st.channels = 2)
    (hb : st.bitsPerSample = 16) (n : ℕ) (hn : st.sampleCount = n) (hfit : 4 * n + 36 < 2 ^ 32) :
    fieldAt st.getWavData 40 4 = 4 * n ∧ fieldAt st.getWavData 4 4 = 4 * n + 36 := by
  have e1 : ((n : ℤ) : ℚ) * ((2 : ℤ) : ℚ) * ((16 : ℤ) : ℚ) / 8 = ((4 * n : ℕ) : ℚ) := by
    push_cast; ring
  have e2 : ((n : ℤ) : ℚ) * ((2 : ℤ) : ℚ) * ((16 : ℤ) : ℚ) / 8 + 36
      = ((4 * n + 36 : ℕ) : ℚ) := by
    push_cast; ring
  have s2 : st.wavHeader.subchunk_2_size = 4 * n := by
    show uint32OfFloat _ = _
    rw [WavForge.getSampleCount, hn, hc, hb, e1, uint32OfFloat_natCast]
    omega
  have s1 : st.wavHeader.chunkSize = 4 * n + 36 := by
    show uint32OfFloat _ = _
    rw [WavForge.getSampleCount, hn, hc, hb, e2, uint32OfFloat_natCast]
    omega
  unfold WavForge.getWavData
  rw [getWavHeader_bytes, s1, s2]
  simp only [fieldAt, List.cons_append, List.drop_succ_cons, List.drop_zero,
    List.take_succ_cons, List.take_zero]
  exact ⟨fieldAt_four _ (by omega), fieldAt_four _ hfit⟩

/-- C1: `getWavData` is the 44 header bytes followed by `output`, but after `InitConfig` and
one `CreateWave` the header does not describe the body. 76880 frames are counted, so the
header holds Subchunk2Size 307520 and ChunkSize 307556, while under `SineLike` the body
has at least 360880 bytes: `len(getWavData) - 44` and `len(getWavData) - 8` exceed the two
fields. -/
theorem CreateWave_header_mismatch (sin : ℚ → ℚ) (hsin : SineLike sin) :
    ∃ st, WavForge.zero.InitConfig.CreateWave sin = some (st, st.output, none)
      ∧ st.sampleCount = 76880
      ∧ st.getWavData = st.getWavHeader ++ st.output
      ∧ st.getWavHeader.length = 44
      ∧ fieldAt st.getWavData 40 4 = 307520
      ∧ fieldAt st.getWavData 4 4 = 307556
      ∧ 307520 < st.getWavData.length - 44
      ∧ 307556 < st.getWavData.length - 8 := by
  obtain ⟨st, body, e, c, r, b, n, o, l⟩ :=
    createWave_loop sin hsin "uv8e463l175lsiijdq4t".toList (by decide)
      WavForge.zero.InitConfig rfl rfl rfl
  have hn : st.sampleCount = ((76880 : ℕ) : ℤ) := by
    rw [n]; simp [WavForge.InitConfig]
  have hlen : 360880 ≤ st.output.length := by
    rw [o]
    simp only [WavForge.InitConfig, List.nil_append]
    simpa using l
  have hdata : st.getWavData.length = 44 + st.output.length := by
    unfold WavForge.getWavData
    rw [List.length_append, getWavHeader_length]
  obtain ⟨f40, f4⟩ := header_sizes_default st c b 76880 hn (by norm_num)
  refine ⟨st, ?_, by rw [hn]; rfl, rfl, getWavHeader_length st, f40, f4, by omega, by omega⟩
  unfold WavForge.CreateWave
  rw [e]
  rfl

theorem CreateWave_header_mismatch_witness :
    ∃ st, WavForge.zero.InitConfig.CreateWave sineApprox = some (st, st.output, none)
      ∧ st.sampleCount = 76880
      ∧ st.getWavData = st.getWavHeader ++ st.output
      ∧ st.getWavHeader.length = 44
      ∧ fieldAt st.getWavData 40 4 = 307520
      ∧ fieldAt st.getWavData 4 4 = 307556
      ∧ 307520 < st.getWavData.length - 44
      ∧ 307556 < st.getWavData.length - 8 :=
  CreateWave_header_mismatch sineApprox sineApprox_sineLike

/-! ## More on `EncodeSample`: zero, underflow, fractions -/

/-- A value that is not positive skips the digit loop: only the padding is emitted. -/
theorem encodedString_of_nonpos (b : ℤ) (v : ℚ) (h : v ≤ 0) :
    encodedString b v = List.replicate ((-((-b) >>> 3) + 1) / 2).toNat 0 := by
  unfold encodedString
  simp only [if_neg (not_lt.mpr h), List.map_nil, List.nil_append, List.length_nil,
    Nat.cast_zero, sub_zero]
  generalize ((-((-b) >>> 3) + 1) / 2).toNat = k
  induction k with
  | zero => rfl
  | succ k ih => simp [List.replicate_succ, ih]

/-- The amplitude 0 is encoded as `⌈⌈b / 8⌉ / 2⌉` zero bytes. -/
theorem EncodeSample_zero (this : WavForge) :
    this.EncodeSample 0
      = (List.replicate ((-((-this.bitsPerSample) >>> 3) + 1) / 2).toNat 0, none) := by
  have hm : (0 : ℚ) < 2 ^ this.bitsPerSample := by positivity
  rw [EncodeSample_eq, if_neg (lt_irrefl _), if_neg (not_lt.mpr hm.le), if_neg hm.ne,
    encodedString_of_nonpos _ _ le_rfl]

/-- The amplitude `2 ^ bitsPerSample` is reset to 0 before it is encoded. -/
theorem EncodeSample_max (this : WavForge) :
    this.EncodeSample (2 ^ this.bitsPerSample) = this.EncodeSample 0 := by
  have hm : (0 : ℚ) < 2 ^ this.bitsPerSample := by positivity
  rw [EncodeSample_zero, EncodeSample_eq, if_neg (not_lt.mpr hm.le), if_neg (lt_irrefl _),
    if_pos rfl, encodedString_of_nonpos _ _ le_rfl]

/-- The error of `EncodeSample` is raised exactly above `2 ^ bitsPerSample`. -/
theorem EncodeSample_error_iff (this : WavForge) (x : ℚ) :
    (this.EncodeSample x).2 ≠ none ↔ (2 : ℚ) ^ this.bitsPerSample < x := by
  have hm : (0 : ℚ) < 2 ^ this.bitsPerSample := by positivity
  rw [EncodeSample_eq]
  by_cases hneg : x < 0
  · have h1 : ¬ (2 : ℚ) ^ this.bitsPerSample < x + 2 ^ this.bitsPerSample := by linarith
    have h2 : ¬ (2 : ℚ) ^ this.bitsPerSample < x := by linarith
    rw [if_pos hneg, if_neg h1]
    simp [h2]
  · rw [if_neg hneg]
    by_cases h : (2 : ℚ) ^ this.bitsPerSample < x
    · rw [if_pos h]; simp [h]
    · rw [if_neg h]; simp [h]

/-- C15: `EncodeSample (2 ^ bitsPerSample)` returns what `EncodeSample 0` returns, without
error; but these are not `⌈b / 8⌉` zero bytes: at 16 bits the result is the single byte 0,
because the padding loop stops halfway. -/
theorem EncodeSample_wrap_to_zero (this : WavForge) :
    this.EncodeSample (2 ^ this.bitsPerSample) = this.EncodeSample 0
      ∧ (this.EncodeSample (2 ^ this.bitsPerSample)).2 = none
      ∧ WavForge.zero.InitConfig.EncodeSample (2 ^ (16 : ℤ)) = ([0], none) := by
  refine ⟨EncodeSample_max this, ?_, ?_⟩
  · rw [EncodeSample_max, EncodeSample_zero]
  · exact (EncodeSample_max WavForge.zero.InitConfig).trans (EncodeSample_default_zero _ rfl)

/-- At 16 bits the amplitude 200 is encoded as `0xC3 0x88 0x00`. -/
theorem EncodeSample_default_200 (this : WavForge) (h : this.bitsPerSample = 16) :
    this.EncodeSample 200 = ([0xC3, 0x88, 0x00], none) := by
  rw [EncodeSample_eq, h]
  norm_num [encodedString]
  simp [sampleDigits_of_lt]
  decide

/-- At 32 bits the amplitude 5 is encoded as three bytes. -/
theorem EncodeSample_32_five (this : WavForge) (h : this.bitsPerSample = 32) :
    this.EncodeSample 5 = ([5, 0, 0], none) := by
  rw [EncodeSample_eq, h]
  norm_num [encodedString]
  simp [sampleDigits_of_lt]
  decide

/-- At 16 bits an amplitude strictly between 0 and 1 is encoded as two zero bytes. -/
theorem EncodeSample_default_half (this : WavForge) (h : this.bitsPerSample = 16) :
    this.EncodeSample (1 / 2) = ([0, 0], none) := by
  rw [EncodeSample_eq, h]
  norm_num [encodedString]
  have : ⌊(1 / 2 : ℚ)⌋ = 0 := by rw [Int.floor_eq_iff]; norm_num
  simp [this, sampleDigits_of_lt]
  decide

/-- C18: each digit is emitted as the UTF-8 form of its code point, so at 16 bits the
amplitude 200 gives the three bytes `0xC3 0x88 0x00`; but the length is not always
`⌈b / 8⌉` plus the number of digits from 128 on: at 16 bits the amplitude 0 gives 1 byte,
not 2, and at 32 bits the amplitude 5 gives 3 bytes, not 4, because the padding loop stops
halfway. -/
theorem EncodeSample_utf8_length :
    WavForge.zero.InitConfig.EncodeSample 200 = ([0xC3, 0x88, 0x00], none)
      ∧ WavForge.zero.InitConfig.EncodeSample 0 = ([0], none)
      ∧ (WavForge.zero.InitConfig.SetBitsPerSample 32).EncodeSample 5 = ([5, 0, 0], none) :=
  ⟨EncodeSample_default_200 _ rfl, EncodeSample_default_zero _ rfl, EncodeSample_32_five _ rfl⟩

/-- C19: an amplitude strictly below `-2 ^ bitsPerSample` stays negative after the wrap and
is encoded without error as the amplitude 0 is, all bytes zero; and `EncodeSample` returns
an error exactly for the amplitudes strictly above `2 ^ bitsPerSample`. -/
theorem EncodeSample_underflow (this : WavForge) (number : ℚ)
    (h : number < -(2 : ℚ) ^ this.bitsPerSample) :
    this.EncodeSample number = this.EncodeSample 0
      ∧ (this.EncodeSample number).2 = none
      ∧ (∀ byte ∈ (this.EncodeSample number).1, byte = 0)
      ∧ ∀ x : ℚ, (this.EncodeSample x).2 ≠ none ↔ (2 : ℚ) ^ this.bitsPerSample < x := by
  have hm : (0 : ℚ) < 2 ^ this.bitsPerSample := by positivity
  have hneg : number < 0 := by linarith
  have hw : number + 2 ^ this.bitsPerSample < 0 := by linarith
  have h1 : ¬ (2 : ℚ) ^ this.bitsPerSample < number + 2 ^ this.bitsPerSample := by linarith
  have h2 : ¬ number + 2 ^ this.bitsPerSample = 2 ^ this.bitsPerSample := by
    intro e; linarith
  have e : this.EncodeSample number = this.EncodeSample 0 := by
    rw [EncodeSample_zero, EncodeSample_eq, if_pos hneg, if_neg h1, if_neg h2,
      encodedString_of_nonpos _ _ hw.le]
  refine ⟨e, ?_, ?_, EncodeSample_error_iff this⟩
  · rw [e, EncodeSample_zero]
  · rw [e, EncodeSample_zero]
    intro byte hb
    exact List.eq_of_mem_replicate hb

theorem EncodeSample_underflow_witness :
    WavForge.zero.InitConfig.EncodeSample (-70000) = WavForge.zero.InitConfig.EncodeSample 0
      ∧ (WavForge.zero.InitConfig.EncodeSample (-70000)).2 = none
      ∧ (∀ byte ∈ (WavForge.zero.InitConfig.EncodeSample (-70000)).1, byte = 0)
      ∧ ∀ x : ℚ, (WavForge.zero.InitConfig.EncodeSample x).2 ≠ none
          ↔ (2 : ℚ) ^ WavForge.zero.InitConfig.bitsPerSample < x :=
  EncodeSample_underflow WavForge.zero.InitConfig (-70000)
    (by norm_num [WavForge.InitConfig])

/-- C20: a fraction is not always dropped. At 16 bits `EncodeSample (1 / 2)` returns two
zero bytes while `EncodeSample ⌊1 / 2⌋ = EncodeSample 0` returns one: the digit loop emits
the digit 0 for a value in `(0, 1)` and the padding loop then stops halfway. Above the
range the claim holds: `EncodeSample (65536 + 1 / 2)` is the overflow error while
`EncodeSample ⌊65536 + 1 / 2⌋` returns without error. -/
theorem EncodeSample_fraction :
    WavForge.zero.InitConfig.EncodeSample (1 / 2) = ([0, 0], none)
      ∧ WavForge.zero.InitConfig.EncodeSample ((⌊(1 / 2 : ℚ)⌋ : ℤ) : ℚ) = ([0], none)
      ∧ WavForge.zero.InitConfig.EncodeSample (65536 + 1 / 2)
          = ([], some (error.Overflow (65536 + 1 / 2) 16))
      ∧ WavForge.zero.InitConfig.EncodeSample ((⌊(65536 + 1 / 2 : ℚ)⌋ : ℤ) : ℚ)
          = ([0], none) := by
  have f1 : ⌊(1 / 2 : ℚ)⌋ = 0 := by rw [Int.floor_eq_iff]; norm_num
  have f2 : ⌊(65536 + 1 / 2 : ℚ)⌋ = 65536 := by rw [Int.floor_eq_iff]; norm_num
  have hm : (2 : ℚ) ^ WavForge.zero.InitConfig.bitsPerSample = 65536 := by
    norm_num [WavForge.InitConfig]
  refine ⟨EncodeSample_default_half _ rfl, ?_, ?_, ?_⟩
  · rw [f1]
    exact_mod_cast EncodeSample_default_zero WavForge.zero.InitConfig rfl
  · rw [EncodeSample_eq, hm]
    norm_num
    rfl
  · rw [f2]
    have := (EncodeSample_max WavForge.zero.InitConfig).trans
      (EncodeSample_default_zero _ rfl)
    rw [hm] at this
    exact_mod_cast this

/-! ## The setters -/

/-- C14, on the code: the setters store what they are given and report nothing. `SetChannels`
stores any channel count, `SetSampleRate` any sample rate and `SetBitsPerSample` any bit
depth, the getters return the stored value, and the other fields are left as they were. -/
theorem setters_store (this : WavForge) (channels : ℤ) (sampleRate : ℚ) (bitsPerSample : ℤ) :
    this.SetChannels channels = { this with channels := channels }
      ∧ (this.SetChannels channels).getChannels = channels
      ∧ this.SetSampleRate sampleRate = { this with sampleRate := sampleRate }
      ∧ (this.SetSampleRate sampleRate).getSampleRate = sampleRate
      ∧ this.SetBitsPerSample bitsPerSample = { this with bitsPerSample := bitsPerSample }
      ∧ (this.SetBitsPerSample bitsPerSample).getBitsPerSample = bitsPerSample :=
  ⟨rfl, rfl, rfl, rfl, rfl, rfl⟩

/-- C14, as stated, fails: a channel count of 0, a sample rate of -1 and a bit depth of 12
are each stored in the configuration. -/
theorem setters_store_invalid :
    (WavForge.zero.InitConfig.SetChannels 0).getChannels = 0
      ∧ (WavForge.zero.InitConfig.SetSampleRate (-1)).getSampleRate = -1
      ∧ (WavForge.zero.InitConfig.SetBitsPerSample 12).getBitsPerSample = 12
      ∧ ¬ (8 : ℤ) ∣ 12 :=
  ⟨rfl, rfl, rfl, by decide⟩

/-! ## The envelope and the range of the samples -/

theorem wingRatioAt_zero (T : ℕ) (hT : 1 ≤ T) : wingRatioAt (T : ℚ) 0 = 0 := by
  have h2 : (0 : ℚ) < (T : ℚ) * 0.250 := by
    have : (1 : ℚ) ≤ (T : ℚ) := by exact_mod_cast hT
    norm_num
    linarith
  unfold wingRatioAt
  simp only [Nat.cast_zero, h2, if_true, zero_div]

/-- C16: for `totalFrames ≥ 1` and a frame `i` below it, the divisor
`raiseWing = dropWing = totalFrames * 0.25` of the envelope is not zero, the ratio lies in
`[0, 1]`, and it is 0 at the first frame. -/
theorem wingRatio_well_defined (totalFrames i : ℕ) (hT : 1 ≤ totalFrames)
    (hi : i < totalFrames) :
    (totalFrames : ℚ) * 0.250 ≠ 0
      ∧ 0 ≤ wingRatioAt (totalFrames : ℚ) i
      ∧ wingRatioAt (totalFrames : ℚ) i ≤ 1
      ∧ wingRatioAt (totalFrames : ℚ) 0 = 0 := by
  obtain ⟨h0, h1, -⟩ := wingRatioAt_bounds totalFrames i hi
  refine ⟨?_, h0, h1, wingRatioAt_zero totalFrames hT⟩
  have : (1 : ℚ) ≤ (totalFrames : ℚ) := by exact_mod_cast hT
  norm_num
  linarith

theorem wingRatio_well_defined_witness :
    ((4 : ℕ) : ℚ) * 0.250 ≠ 0
      ∧ 0 ≤ wingRatioAt ((4 : ℕ) : ℚ) 3
      ∧ wingRatioAt ((4 : ℕ) : ℚ) 3 ≤ 1
      ∧ wingRatioAt ((4 : ℕ) : ℚ) 0 = 0 :=
  wingRatio_well_defined 4 3 (by norm_num) (by norm_num)

/-- The amplitude of a frame is at most half the range, for a volume in `[0, 1]` and a sine
with values in `[-1, 1]`. -/
theorem sampleAt_abs_le (sin : ℚ → ℚ) (hsin : ∀ x, -1 ≤ sin x ∧ sin x ≤ 1) (this : WavForge)
    (frequency volume seconds : ℚ) (hv0 : 0 ≤ volume) (hv1 : volume ≤ 1) (i : ℕ)
    (hi : i < frameCount this seconds) :
    |sampleAt sin this frequency volume seconds i| ≤ 2 ^ this.bitsPerSample / 2 := by
  have hB : (0 : ℚ) < 2 ^ this.bitsPerSample / 2 := by positivity
  unfold sampleAt
  simp only []
  rw [frameCount_floor this seconds (by omega)]
  obtain ⟨hw0, hw1, -⟩ := wingRatioAt_bounds (frameCount this seconds) i hi
  obtain ⟨hy0, hy1⟩ := hsin (2 * Pi * (i : ℚ) * frequency / this.sampleRate)
  generalize wingRatioAt ((frameCount this seconds : ℕ) : ℚ) i = w at hw0 hw1
  generalize sin (2 * Pi * (i : ℚ) * frequency / this.sampleRate) = y at hy0 hy1
  generalize (2 : ℚ) ^ this.bitsPerSample / 2 = B at hB
  have hvw0 : 0 ≤ volume * w := mul_nonneg hv0 hw0
  have hvw1 : volume * w ≤ 1 := by nlinarith
  have hy : |y| ≤ 1 := abs_le.mpr ⟨hy0, hy1⟩
  have e : volume * B * w * y = B * ((volume * w) * y) := by ring
  rw [e, abs_mul, abs_of_pos hB, abs_mul, abs_of_nonneg hvw0]
  have : volume * w * |y| ≤ 1 := by
    calc volume * w * |y| ≤ 1 * 1 := mul_le_mul hvw1 hy (abs_nonneg y) (by norm_num)
      _ = 1 := by norm_num
  nlinarith

/-- C17: for a volume in `[0, 1]` and a sine with values in `[-1, 1]`, no frame of a call of
`synthesizeSine` overflows: the amplitude is at most `2 ^ b / 2` in absolute value, the
value after the wrap of a negative amplitude lies in `[0, 2 ^ b]`, and `EncodeSample`
returns no error. -/
theorem synthesizeSine_no_overflow (sin : ℚ → ℚ) (hsin : ∀ x, -1 ≤ sin x ∧ sin x ≤ 1)
    (this : WavForge) (frequency volume seconds : ℚ) (hv0 : 0 ≤ volume) (hv1 : volume ≤ 1)
    (i : ℕ) (hi : i < frameCount this seconds) :
    |sampleAt sin this frequency volume seconds i| ≤ 2 ^ this.bitsPerSample / 2
      ∧ 0 ≤ (if sampleAt sin this frequency volume seconds i < 0
              then sampleAt sin this frequency volume seconds i + 2 ^ this.bitsPerSample
              else sampleAt sin this frequency volume seconds i)
      ∧ (if sampleAt sin this frequency volume seconds i < 0
              then sampleAt sin this frequency volume seconds i + 2 ^ this.bitsPerSample
              else sampleAt sin this frequency volume seconds i) ≤ 2 ^ this.bitsPerSample
      ∧ (this.EncodeSample (sampleAt sin this frequency volume seconds i)).2 = none := by
  have habs := sampleAt_abs_le sin hsin this frequency volume seconds hv0 hv1 i hi
  have hm : (0 : ℚ) < 2 ^ this.bitsPerSample := by positivity
  obtain ⟨hlo, hhi⟩ := abs_le.mp habs
  generalize sampleAt sin this frequency volume seconds i = s at habs hlo hhi
  have hle : s ≤ 2 ^ this.bitsPerSample := by linarith
  refine ⟨habs, ?_, ?_, ?_⟩
  · split_ifs <;> linarith
  · split_ifs <;> linarith
  · by_contra hne
    exact absurd ((EncodeSample_error_iff this s).mp hne) (not_lt.mpr hle)

theorem synthesizeSine_no_overflow_witness :
    |sampleAt sineApprox WavForge.zero.InitConfig 11025 1 (5 / 100000) 1|
        ≤ 2 ^ WavForge.zero.InitConfig.bitsPerSample / 2
      ∧ 0 ≤ (if sampleAt sineApprox WavForge.zero.InitConfig 11025 1 (5 / 100000) 1 < 0
              then sampleAt sineApprox WavForge.zero.InitConfig 11025 1 (5 / 100000) 1
                + 2 ^ WavForge.zero.InitConfig.bitsPerSample
              else sampleAt sineApprox WavForge.zero.InitConfig 11025 1 (5 / 100000) 1)
      ∧ (if sampleAt sineApprox WavForge.zero.InitConfig 11025 1 (5 / 100000) 1 < 0
              then sampleAt sineApprox WavForge.zero.InitConfig 11025 1 (5 / 100000) 1
                + 2 ^ WavForge.zero.InitConfig.bitsPerSample
              else sampleAt sineApprox WavForge.zero.InitConfig 11025 1 (5 / 100000) 1)
          ≤ 2 ^ WavForge.zero.InitConfig.bitsPerSample
      ∧ (WavForge.zero.InitConfig.EncodeSample
          (sampleAt sineApprox WavForge.zero.InitConfig 11025 1 (5 / 100000) 1)).2 = none :=
  synthesizeSine_no_overflow sineApprox sineApprox_sineLike.1 WavForge.zero.InitConfig
    11025 1 (5 / 100000) (by norm_num) (by norm_num) 1
    (by
      rw [frameCount_eq WavForge.zero.InitConfig (5 / 100000) 2
        (by norm_num [WavForge.InitConfig]) (by norm_num [WavForge.InitConfig])
        (by norm_num [WavForge.InitConfig])]
      norm_num)

/-! ## The effect of a call on the state -/

theorem frameBytes_congr (sin : ℚ → ℚ) (a c : WavForge) (h1 : a.channels = c.channels)
    (h2 : a.sampleRate = c.sampleRate) (h3 : a.bitsPerSample = c.bitsPerSample)
    (frequency volume seconds : ℚ) (i : ℕ) :
    frameBytes sin a frequency volume seconds i = frameBytes sin c frequency volume seconds i := by
  unfold frameBytes sampleAt
  rw [h1, h2, h3, EncodeSample_congr a c h3]

/-- A call on a state with the default configuration returns; what it appends and counts is
what the call on the `InitConfig` state appends and counts. -/
theorem synthesizeSine_default (sin : ℚ → ℚ) (st : WavForge) (hc : st.channels = 2)
    (hr : st.sampleRate = 44100) (hb : st.bitsPerSample = 16) (frequency volume seconds : ℚ) :
    st.synthesizeSine sin frequency volume seconds
      = some { st with
          output := st.output
            ++ ((List.range (frameCount WavForge.zero.InitConfig seconds)).map
                  (frameBytes sin WavForge.zero.InitConfig frequency volume seconds)).flatten,
          sampleCount := st.sampleCount + frameCount WavForge.zero.InitConfig seconds } := by
  rw [synthesizeSine_eq sin st frequency volume seconds (by rw [hc]; norm_num)
    (fit_default st hc hb)]
  have hn : frameCount st seconds = frameCount WavForge.zero.InitConfig seconds := by
    unfold frameCount; rw [hr]; rfl
  have hf : frameBytes sin st frequency volume seconds
      = frameBytes sin WavForge.zero.InitConfig frequency volume seconds := by
    funext i
    exact frameBytes_congr sin st WavForge.zero.InitConfig hc hr hb frequency volume seconds i
  rw [hn, hf]

/-- The bytes of the first frame lead the bytes of a call of at least one frame. -/
theorem prefix_flatten_map_range (F : ℕ → List ℕ) (n : ℕ) (h : 1 ≤ n) :
    F 0 <+: ((List.range n).map F).flatten := by
  obtain ⟨k, rfl⟩ : ∃ k, n = k + 1 := ⟨n - 1, by omega⟩
  rw [List.range_succ_eq_map, List.map_cons, List.flatten_cons]
  exact List.prefix_append _ _

/-- One round of the loop of `CreateWave`, for a character of the alphabet and any sine: on
all states with the default configuration it returns, counts 3844 frames and appends the
same bytes, which begin with the two zero bytes of the first frame of the carrier tone. -/
theorem createWave_round_default (sin : ℚ → ℚ) (char : Char)
    (hchar : char ∈ "0123456789abcdefghijklmnopqrstuv".toList) :
    ∃ body : List ℕ, [0, 0] <+: body ∧ ∀ st : WavForge, st.channels = 2 →
      st.sampleRate = 44100 → st.bitsPerSample = 16 →
      ((st.synthesizeSine sin 17800 0.6 (0.0872 / 2.0 * 1.4)).bind fun this =>
          (if stringsIndex "0123456789abcdefghijklmnopqrstuv".toList char < 0 then none
            else ((List.range 32).map fun (i : ℕ) =>
              ((((18000 : ℤ) + (i : ℤ) * 64 : ℤ)) : ℚ)).get?
                (stringsIndex "0123456789abcdefghijklmnopqrstuv".toList char).toNat).bind
            fun f => this.synthesizeSine sin f 0.6 (0.0872 / 2.0 * 0.6))
        = some { st with output := st.output ++ body, sampleCount := st.sampleCount + 3844 } := by
  have hidx : stringsIndex "0123456789abcdefghijklmnopqrstuv".toList char
      = (("0123456789abcdefghijklmnopqrstuv".toList.indexOf char : ℕ) : ℤ) := by
    unfold stringsIndex
    rw [if_pos hchar]
  have hlt : "0123456789abcdefghijklmnopqrstuv".toList.indexOf char < 32 := by
    have := List.indexOf_lt_length.mpr hchar
    simpa using this
  have hzero : [0, 0] <+: ((List.range 2691).map
      (frameBytes sin WavForge.zero.InitConfig 17800 0.6 (0.0872 / 2.0 * 1.4))).flatten := by
    have h0 := frameBytes_zero_default sin 17800 0.6 (0.0872 / 2.0 * 1.4)
      (by rw [frameCount_carrier _ rfl]; norm_num)
    have h1 := prefix_flatten_map_range
      (frameBytes sin WavForge.zero.InitConfig 17800 0.6 (0.0872 / 2.0 * 1.4)) 2691
      (by norm_num)
    rw [h0] at h1
    exact h1
  refine ⟨((List.range 2691).map
      (frameBytes sin WavForge.zero.InitConfig 17800 0.6 (0.0872 / 2.0 * 1.4))).flatten
    ++ ((List.range 1153).map
      (frameBytes sin WavForge.zero.InitConfig
        ((18000 + 64 * "0123456789abcdefghijklmnopqrstuv".toList.indexOf char : ℕ) : ℚ) 0.6
        (0.0872 / 2.0 * 0.6))).flatten,
    hzero.trans (List.prefix_append _ _), fun st c r b => ?_⟩
  have e1 := synthesizeSine_default sin st c r b 17800 0.6 (0.0872 / 2.0 * 1.4)
  rw [frameCount_carrier _ rfl] at e1
  have e2 := synthesizeSine_default sin
    { st with
      output := st.output ++ ((List.range 2691).map
        (frameBytes sin WavForge.zero.InitConfig 17800 0.6 (0.0872 / 2.0 * 1.4))).flatten,
      sampleCount := st.sampleCount + (2691 : ℕ) }
    c r b ((18000 + 64 * "0123456789abcdefghijklmnopqrstuv".toList.indexOf char : ℕ) : ℚ) 0.6
    (0.0872 / 2.0 * 0.6)
  rw [frameCount_data _ rfl] at e2
  rw [e1, hidx]
  simp only [Option.some_bind, Int.toNat_ofNat]
  rw [if_neg (by omega), frequency_get _ hlt]
  simp only [Option.some_bind]
  rw [e2]
  simp only [List.append_assoc, add_assoc, Nat.cast_ofNat]
  norm_num

/-- The loop of `CreateWave` over a code of characters of the alphabet, for any sine: on all
states with the default configuration it returns, counts 3844 frames a character and appends
the same bytes, which begin with two zero bytes unless the code is empty. -/
theorem createWave_loop_default (sin : ℚ → ℚ) (testCode : List Char)
    (hcode : ∀ char ∈ testCode, char ∈ "0123456789abcdefghijklmnopqrstuv".toList) :
    ∃ body : List ℕ, (testCode ≠ [] → [0, 0] <+: body) ∧ ∀ st : WavForge, st.channels = 2 →
      st.sampleRate = 44100 → st.bitsPerSample = 16 →
      CreateWave.loop sin testCode st
        = some { st with output := st.output ++ body,
                         sampleCount := st.sampleCount + 3844 * testCode.length } := by
  induction testCode with
  | nil =>
    refine ⟨[], fun h => absurd rfl h, fun st _ _ _ => ?_⟩
    simp [CreateWave.loop]
  | cons char rest ih =>
    obtain ⟨body2, -, h2⟩ := ih (fun c hc => hcode c (List.mem_cons_of_mem _ hc))
    obtain ⟨body1, hz, h1⟩ :=
      createWave_round_default sin char (hcode char (List.mem_cons_self _ _))
    refine ⟨body1 ++ body2, fun _ => hz.trans (List.prefix_append _ _), fun st c r b => ?_⟩
    have e1 := h1 st c r b
    have e2 := h2 { st with output := st.output ++ body1, sampleCount := st.sampleCount + 3844 }
      c r b
    unfold CreateWave.loop at e2 ⊢
    simp only [List.foldlM_cons]
    erw [e1]
    refine e2.trans ?_
    simp only [List.append_assoc, add_assoc, List.length_cons]
    congr 2
    push_cast
    ring
/-- Every character of the code `CreateWave` is written for lies in its alphabet. -/
theorem testCode_in_alphabet :
    ∀ char ∈ "uv8e463l175lsiijdq4t".toList,
      char ∈ "0123456789abcdefghijklmnopqrstuv".toList := by
  decide

/-- The loop of `CreateWave` on its own code, for any sine and on all states with the default
configuration: it returns, counts 76880 frames and appends the same bytes, which begin with
two zero bytes. -/
theorem createWave_loop_testCode (sin : ℚ → ℚ) :
    ∃ body : List ℕ, [0, 0] <+: body ∧ ∀ st : WavForge, st.channels = 2 →
      st.sampleRate = 44100 → st.bitsPerSample = 16 →
      CreateWave.loop sin "uv8e463l175lsiijdq4t".toList st
        = some { st with output := st.output ++ body,
                         sampleCount := st.sampleCount + 76880 } := by
  obtain ⟨body, hz, h⟩ := createWave_loop_default sin "uv8e463l175lsiijdq4t".toList
    testCode_in_alphabet
  refine ⟨body, hz (by decide), fun st c r b => ?_⟩
  rw [h st c r b]
  have hlen : "uv8e463l175lsiijdq4t".toList.length = 20 := by decide
  rw [hlen]
  norm_num

/-- C13: on a fresh `InitConfig` instance the first `CreateWave` returns some `r`, the second
call on the same instance returns `r` followed by `r`, twice as long, and `sampleCount`
after the second call is twice its value after the first. State does accumulate: `r` is not
empty (it begins with the two zero bytes of the first frame), so the second result differs
from the first, and the counter stands at 76880 after the first call. Proved for every
sine. -/
theorem CreateWave_twice (sin : ℚ → ℚ) :
    ∃ (st1 st2 : WavForge) (r : List ℕ),
      WavForge.zero.InitConfig.CreateWave sin = some (st1, r, none)
        ∧ st1.CreateWave sin = some (st2, r ++ r, none)
        ∧ (r ++ r).length = 2 * r.length
        ∧ st2.sampleCount = 2 * st1.sampleCount
        ∧ [0, 0] <+: r
        ∧ 0 < r.length
        ∧ r ++ r ≠ r
        ∧ st1.sampleCount = 76880
        ∧ st1.output = r
        ∧ st2.output = r ++ r := by
  obtain ⟨body, hz, h⟩ := createWave_loop_testCode sin
  have e1 := h WavForge.zero.InitConfig rfl rfl rfl
  have e2 := h { WavForge.zero.InitConfig with
    output := WavForge.zero.InitConfig.output ++ body,
    sampleCount := WavForge.zero.InitConfig.sampleCount + 76880 } rfl rfl rfl
  have hpos : 0 < body.length := by
    have := hz.length_le
    simp only [List.length_cons, List.length_nil] at this
    omega
  refine ⟨{ WavForge.zero.InitConfig with
      output := WavForge.zero.InitConfig.output ++ body,
      sampleCount := WavForge.zero.InitConfig.sampleCount + 76880 },
    { WavForge.zero.InitConfig with
      output := WavForge.zero.InitConfig.output ++ body ++ body,
      sampleCount := WavForge.zero.InitConfig.sampleCount + 76880 + 76880 },
    body, ?_, ?_, ?_, ?_, hz, hpos, ?_, rfl, rfl, rfl⟩
  · unfold WavForge.CreateWave
    rw [e1]
    rfl
  · unfold WavForge.CreateWave
    rw [e2]
    rfl
  · rw [List.length_append]; omega
  · show WavForge.zero.InitConfig.sampleCount + 76880 + 76880
      = 2 * (WavForge.zero.InitConfig.sampleCount + 76880)
    have : WavForge.zero.InitConfig.sampleCount = 0 := rfl
    rw [this]
    norm_num
  · intro heq
    have := congrArg List.length heq
    rw [List.length_append] at this
    omega

end wavemix
